import Mathlib

/-!
# cfn-compose scheduler: grouping, dispatch barrier and per-job stack execution

A shallow embedding of `compose/composer.go`.

* `Apply` is the dispatcher.  Its channel operations are sequential from the
  dispatcher's point of view, so a run is modelled by the trace of events the
  dispatcher performs (`workChan <- w`, `r := <-resultsChan`, `cancelCtx()`) for a
  given stream of outcomes arriving on `resultsChan`, together with the way the
  run ends.  Logging, sleeping, the export of environment variables and the
  start of the worker goroutines produce no event.
* `ExecuteJob` is the worker.  The body of its `case work := <-workChan` branch is
  modelled by `executeWork`, which returns the backend operations invoked and the
  values the worker sends on `resultsChan`, in program order; `ExecuteJob` runs
  it for every unit the worker claims until `ctx.Done()` is selected.

The packages `config`, `cfn` and `libs` are external to the scheduler: a stack is
known by its `StackName`, the four stack operations are a parameter (`Backend`),
and the result of `libs.GetAWSSession` is a parameter of `Apply`.
-/

namespace Compose

/-! ## Data model -/

/-- A stack of `config.Job.Stacks`; the scheduler reads only `StackName`. -/
structure Stack where
  StackName : String
deriving DecidableEq, Repr

/-- The fields of `config.Job` the scheduler uses. -/
structure Job where
  Name : String
  Order : Int
  Stacks : List Stack
deriving DecidableEq, Repr

/-- The handle `cfn.CFNManager{Session: sess}`; the session is an identifier here. -/
structure CFNManager where
  Session : Nat
deriving DecidableEq, Repr

/-- The struct `Work`. -/
structure Work where
  JobName : String
  Job : Job
  DryRun : Bool
  DeployMode : Bool
  CfnManager : CFNManager
deriving DecidableEq, Repr

/-- The struct `Result`; `Error = none` is Go's `nil` error. -/
structure Result where
  JobName : String
  Error : Option String
deriving DecidableEq, Repr

/-- The fields of `config.ComposeConfig` used by `Apply`.  `Jobs` is a Go map from
job name to job; the list gives its entries in the order the `range` loop visits
them (any order is possible). -/
structure ComposeConfig where
  Jobs : List (String × Job)
  Vars : List (String × String)
deriving Repr

/-! ## Worker: per-unit execution (`ExecuteJob`, lines 128-184) -/

/-- The four stack operations of the backend. -/
inductive StackOp where
  | ApplyDryRun
  | ApplyChanges
  | DestoryDryRun
  | Destroy
deriving DecidableEq, Repr

/-- One invocation of a stack operation. -/
structure Call where
  op : StackOp
  stack : Stack
deriving DecidableEq, Repr

/-- The backend as seen during one unit of work: the error (if any) returned by
operation `op` invoked on the stack at index `i` of `job.Stacks`.  Every index is
visited at most once per unit, so this covers every pattern of successes and
failures. -/
abbrev Backend := StackOp → Nat → Stack → Option String

/-- Text built by `fmt.Sprintf("[JOB: %s] [STACK: %s]. Error: %s\n", name, stack.StackName, err)`. -/
def errStr (name stackName err : String) : String :=
  "[JOB: " ++ name ++ "] [STACK: " ++ stackName ++ "]. Error: " ++ err ++ "\n"

/-- Operation chosen in the deploy branch (lines 143-148). -/
def deployOp (dryRun : Bool) : StackOp :=
  if dryRun then StackOp.ApplyDryRun else StackOp.ApplyChanges

/-- Operation chosen in the destroy branch (lines 165-170). -/
def destroyOp (dryRun : Bool) : StackOp :=
  if dryRun then StackOp.DestoryDryRun else StackOp.Destroy

/-- The loop `for i := 0; i < len(job.Stacks); i++` (lines 139-159), started at
index `i` with the stacks from `i` on.  Returns the operations invoked and the
results sent inside the loop. -/
def deployLoop (be : Backend) (name : String) (dryRun : Bool) :
    Nat → List Stack → List Call × List Result
  | _, [] => ([], [])
  | i, stack :: rest =>
    match be (deployOp dryRun) i stack with
    | some err =>
      -- resultsChan <- Result{Error: errors.New(errStr), JobName: name}; break
      ([⟨deployOp dryRun, stack⟩], [⟨name, some (errStr name stack.StackName err)⟩])
    | none =>
      let r := deployLoop be name dryRun (i + 1) rest
      (⟨deployOp dryRun, stack⟩ :: r.1, r.2)

/-- The loop `for i := len(job.Stacks) - 1; i >= 0; i--` (lines 161-181); the
argument `n` is `i + 1`. -/
def destroyLoop (be : Backend) (name : String) (dryRun : Bool) (stks : List Stack) :
    Nat → List Call × List Result
  | 0 => ([], [])
  | i + 1 =>
    match stks[i]? with
    | none => ([], [])  -- index out of range: not reachable from `len(job.Stacks)`
    | some stack =>
      match be (destroyOp dryRun) i stack with
      | some err =>
        ([⟨destroyOp dryRun, stack⟩], [⟨name, some (errStr name stack.StackName err)⟩])
      | none =>
        let r := destroyLoop be name dryRun stks i
        (⟨destroyOp dryRun, stack⟩ :: r.1, r.2)

/-- The body of `case work := <-workChan` (lines 128-184): the stack operations
invoked and the results sent on `resultsChan`, in program order (a send on the
unbuffered channel completes when the value is received; the list holds the
sends the worker performs when each of them is received).  The send of line 184
follows the `if`/`else` unconditionally (`break` only leaves the `for` loop). -/
def executeWork (be : Backend) (work : Work) : List Call × List Result :=
  let name := work.JobName
  let job := work.Job
  let r :=
    if work.DeployMode then deployLoop be name work.DryRun 0 job.Stacks
    else destroyLoop be name work.DryRun job.Stacks job.Stacks.length
  (r.1, r.2 ++ [⟨name, none⟩])

/-- What the `select` of a worker yields at one iteration of its loop. -/
inductive Selected where
  | work (w : Work)   -- `case work := <-workChan`
  | done              -- `case <-ctx.Done()`
deriving DecidableEq, Repr

/-- The worker `ExecuteJob` (lines 121-193) for a given sequence of `select`
results: each claimed unit is executed by `executeWork`, and the worker returns
when `ctx.Done()` is selected.  `be` gives the backend behaviour for each unit. -/
def ExecuteJob (be : Work → Backend) : List Selected → List Call × List Result
  | [] => ([], [])
  | Selected.done :: _ => ([], [])
  | Selected.work w :: rest =>
    let r := executeWork (be w) w
    let r' := ExecuteJob be rest
    (r.1 ++ r'.1, r.2 ++ r'.2)

/-! ## Dispatcher (`Apply`) -/

/-- The map `jobMap` of type `map[int][]config.Job`, as an association list. -/
abbrev JobMap := List (Int × List Job)

/-- Lookup `jobMap[order]` with its `ok` flag. -/
def jobMapGet : JobMap → Int → Option (List Job)
  | [], _ => none
  | (k, jobs) :: rest, order => if k = order then some jobs else jobMapGet rest order

/-- One iteration of the grouping loop (lines 41-47): append to the group of
`job.Order` when it exists, else create it. -/
def jobMapInsert : JobMap → Job → JobMap
  | [], job => [(job.Order, [job])]
  | (k, jobs) :: rest, job =>
    if k = job.Order then (k, jobs ++ [job]) :: rest
    else (k, jobs) :: jobMapInsert rest job

/-- The grouping loop (lines 38-48); `job.Name = name` is line 40. -/
def buildJobMap (jobs : List (String × Job)) : JobMap :=
  jobs.foldl (fun m p => jobMapInsert m { p.2 with Name := p.1 }) []

/-- The keys collected by `for key, _ := range jobMap` (lines 78-80), in the
order of the association list. -/
def jobMapKeys (m : JobMap) : List Int := m.map Prod.fst

/-- Lines 84-88: `sort.Ints(orders)` in deploy mode, otherwise
`sort.Sort(sort.Reverse(sort.IntSlice(orders)))`. -/
def sortOrders (deployMode : Bool) (orders : List Int) : List Int :=
  if deployMode then orders.insertionSort (fun a b => a ≤ b)
  else orders.insertionSort (fun a b => b ≤ a)

/-- Events of the dispatcher. -/
inductive Event where
  | send (w : Work)      -- `workChan <- Work{...}` (line 98)
  | recv (r : Result)    -- `r := <-resultsChan` (line 105)
  | cancelCtx            -- a call of `cancelCtx()` (line 107, or the deferred call of line 34)
deriving DecidableEq, Repr

/-- How a run of `Apply` ends. -/
inductive Status where
  | succeeded                      -- "CFN Compose Successfully Completed!!" (line 118)
  | failed (err : String)          -- "CFN compose failed. Error: %s" (line 110)
  | setupFailed (err : String)     -- `os.Exit(1)` after `GetAWSSession` failed (line 71)
deriving DecidableEq, Repr

/-- The barrier loop (lines 104-113): receive `n` outcomes, the first one being
element `pos` of the stream; stop at the first failing one.  Returns the events,
the error on which it returned (if any) and the next stream position. -/
def awaitResults (results : Nat → Result) : Nat → Nat → List Event × Option String × Nat
  | 0, pos => ([], none, pos)
  | n + 1, pos =>
    match (results pos).Error with
    | some err => ([Event.recv (results pos), Event.cancelCtx], some err, pos + 1)
    | none =>
      let r := awaitResults results n (pos + 1)
      (Event.recv (results pos) :: r.1, r.2.1, r.2.2)

/-- The dispatch loop `for _, order = range orders` (lines 91-115). -/
def dispatchLoop (jobMap : JobMap) (results : Nat → Result) (deployMode dryRun : Bool)
    (cm : CFNManager) : List Int → Nat → List Event × Status
  | [], _ => ([], Status.succeeded)
  | order :: rest, pos =>
    match jobMapGet jobMap order with
    | none => dispatchLoop jobMap results deployMode dryRun cm rest pos
    | some jobs =>
      let sends := jobs.map (fun job => Event.send ⟨job.Name, job, dryRun, deployMode, cm⟩)
      match awaitResults results jobs.length pos with
      | (evs, some err, _) => (sends ++ evs, Status.failed err)
      | (evs, none, pos') =>
        let r := dispatchLoop jobMap results deployMode dryRun cm rest pos'
        (sends ++ (evs ++ r.1), r.2)

/-- A run of `Apply`: the dispatcher's events and the final status. -/
structure Run where
  trace : List Event
  status : Status
deriving DecidableEq, Repr

/-- The function `Apply`.  `sess` is the result of `libs.GetAWSSession()` and
`results` the stream of outcomes arriving on `resultsChan`: element `n` is the
value obtained by the `n`-th receive of the dispatcher (every receive is served).
On a normal return the deferred `cancelCtx()` of line 34 runs last; `os.Exit`
runs no deferred call. -/
def Apply (cc : ComposeConfig) (_logLevel : Int) (deployMode dryRun : Bool)
    (sess : Except String Nat) (results : Nat → Result) : Run :=
  let jobMap := buildJobMap cc.Jobs
  match sess with
  | Except.error err => ⟨[], Status.setupFailed err⟩
  | Except.ok s =>
    let cm : CFNManager := ⟨s⟩
    let orders := sortOrders deployMode (jobMapKeys jobMap)
    let r := dispatchLoop jobMap results deployMode dryRun cm orders 0
    ⟨r.1 ++ [Event.cancelCtx], r.2⟩

/-! ## Observations on traces -/

/-- Units of work pushed, in order. -/
def sentWorks : List Event → List Work
  | [] => []
  | Event.send w :: es => w :: sentWorks es
  | _ :: es => sentWorks es

/-- Outcomes received, in order. -/
def recvResults : List Event → List Result
  | [] => []
  | Event.recv r :: es => r :: recvResults es
  | _ :: es => recvResults es

/-- Number of calls of `cancelCtx`. -/
def cancelCalls : List Event → Nat
  | [] => 0
  | Event.cancelCtx :: es => cancelCalls es + 1
  | _ :: es => cancelCalls es

/-- Number of times the cancellation signal fires: a `context.CancelFunc` closes
the `Done` channel on its first call and does nothing afterwards.  `done` tells
whether the context is already cancelled. -/
def broadcasts : Bool → List Event → Nat
  | _, [] => 0
  | done, Event.cancelCtx :: es => (if done then 0 else 1) + broadcasts true es
  | done, _ :: es => broadcasts done es

/-! ## Scenario of the specification -/

def scenarioJobs : List (String × Job) :=
  [("A", ⟨"", 1, [⟨"s1"⟩, ⟨"s2"⟩]⟩), ("B", ⟨"", 1, [⟨"s3"⟩]⟩), ("C", ⟨"", 2, [⟨"s4"⟩]⟩)]

def scenarioConfig : ComposeConfig := ⟨scenarioJobs, []⟩

/-- All outcomes succeed. -/
def okStream : Nat → Result := fun _ => ⟨"", none⟩

/-- The first outcome fails, all others succeed. -/
def failFirstStream : Nat → Result
  | 0 => ⟨"A", some "boom"⟩
  | _ => ⟨"B", none⟩

/-- The operation a unit of work invokes on each of its stacks. -/
def workOp (w : Work) : StackOp :=
  if w.DeployMode then deployOp w.DryRun else destroyOp w.DryRun

/-! ## Vocabulary of the statements -/

/-- The entry of `cc.Jobs` after `job.Name = name` (line 40). -/
def named (p : String × Job) : Job := { p.2 with Name := p.1 }

/-- All jobs held by the groups of a job map, group after group. -/
def groupedJobs : JobMap → List Job
  | [] => []
  | (_, jobs) :: rest => jobs ++ groupedJobs rest

/-- The group dispatched for an order key (empty when the key is absent). -/
def groupOf (m : JobMap) (order : Int) : List Job := (jobMapGet m order).getD []

/-- Every job of a group carries the key of the group as its `Order`. -/
def GroupsByOrder (m : JobMap) : Prop :=
  ∀ g ∈ m, ∀ j ∈ g.2, j.Order = g.1

/-- The unit of work built at line 98 for a job. -/
def mkWork (deployMode dryRun : Bool) (cm : CFNManager) (job : Job) : Work :=
  ⟨job.Name, job, dryRun, deployMode, cm⟩

/-- Units pushed in a trace for groups other than `o`. -/
def sentOther (o : Int) : List Event → Nat
  | [] => 0
  | Event.send w :: es => (if w.Job.Order = o then 0 else 1) + sentOther o es
  | _ :: es => sentOther o es

/-- Units pushed in a trace for group `o`. -/
def sentFor (o : Int) : List Event → Nat
  | [] => 0
  | Event.send w :: es => (if w.Job.Order = o then 1 else 0) + sentFor o es
  | _ :: es => sentFor o es

/-- The slice `orders` the dispatch loop of `Apply` ranges over. -/
def applyOrders (cc : ComposeConfig) (deployMode : Bool) : List Int :=
  sortOrders deployMode (jobMapKeys (buildJobMap cc.Jobs))

/-- Job `A` of the scenario as a deploy unit of work. -/
def unitA : Work := ⟨"A", ⟨"A", 1, [⟨"s1"⟩, ⟨"s2"⟩]⟩, false, true, ⟨7⟩⟩

/-- Backend on which every operation on the stack at index 0 fails. -/
def failAt0 : Backend := fun _ i _ => if i = 0 then some "boom" else none

/-- Backend on which every operation succeeds. -/
def okBackend : Backend := fun _ _ _ => none

/-! ## Worker lemmas -/

theorem deployLoop_ok (be : Backend) (name : String) (d : Bool) :
    ∀ (stks : List Stack) (i : Nat),
      (∀ j s, stks[j]? = some s → be (deployOp d) (i + j) s = none) →
      deployLoop be name d i stks = (stks.map (Call.mk (deployOp d)), [])
  | [], _, _ => rfl
  | s :: rest, i, h => by
    have h0 : be (deployOp d) i s = none := by simpa using h 0 s (by simp)
    have hrest : ∀ j t, rest[j]? = some t → be (deployOp d) (i + 1 + j) t = none := by
      intro j t hj
      have := h (j + 1) t (by simpa using hj)
      simpa [Nat.add_assoc, Nat.add_comm 1 j] using this
    simp [deployLoop, h0, deployLoop_ok be name d rest (i + 1) hrest]

theorem deployLoop_fail (be : Backend) (name : String) (d : Bool) :
    ∀ (stks : List Stack) (i k : Nat) (s : Stack) (e : String),
      stks[k]? = some s → be (deployOp d) (i + k) s = some e →
      (∀ j t, j < k → stks[j]? = some t → be (deployOp d) (i + j) t = none) →
      deployLoop be name d i stks =
        ((stks.take (k + 1)).map (Call.mk (deployOp d)), [⟨name, some (errStr name s.StackName e)⟩])
  | [], _, k, s, e, hk, _, _ => by simp at hk
  | t :: rest, i, 0, s, e, hk, hf, _ => by
    have hts : t = s := by simpa using hk
    subst hts
    have hf0 : be (deployOp d) i t = some e := by simpa using hf
    simp [deployLoop, hf0]
  | t :: rest, i, k + 1, s, e, hk, hf, hlt => by
    have h0 : be (deployOp d) i t = none := by simpa using hlt 0 t (Nat.succ_pos k) (by simp)
    have hk1 : rest[k]? = some s := by simpa using hk
    have hf1 : be (deployOp d) (i + 1 + k) s = some e := by
      simpa [Nat.add_assoc, Nat.add_comm 1 k] using hf
    have hlt1 : ∀ j u, j < k → rest[j]? = some u → be (deployOp d) (i + 1 + j) u = none := by
      intro j u hj hu
      have := hlt (j + 1) u (Nat.succ_lt_succ hj) (by simpa using hu)
      simpa [Nat.add_assoc, Nat.add_comm 1 j] using this
    simp [deployLoop, h0, deployLoop_fail be name d rest (i + 1) k s e hk1 hf1 hlt1]

theorem destroyLoop_ok (be : Backend) (name : String) (d : Bool) (stks : List Stack) :
    ∀ n : Nat, n ≤ stks.length →
      (∀ j s, j < n → stks[j]? = some s → be (destroyOp d) j s = none) →
      destroyLoop be name d stks n = (((stks.take n).reverse).map (Call.mk (destroyOp d)), [])
  | 0, _, _ => by simp [destroyLoop]
  | n + 1, hn, h => by
    have hlt : n < stks.length := hn
    have hget : stks[n]? = some stks[n] := List.getElem?_eq_getElem hlt
    have h0 : be (destroyOp d) n stks[n] = none := h n _ (Nat.lt_succ_self n) hget
    have ih := destroyLoop_ok be name d stks n (Nat.le_of_lt hlt)
      (fun j s hj hs => h j s (Nat.lt_succ_of_lt hj) hs)
    have htake : stks.take (n + 1) = stks.take n ++ [stks[n]] := by
      rw [List.take_succ, hget]; rfl
    rw [htake]
    simp only [destroyLoop, hget, h0, ih, List.reverse_append, List.reverse_cons, List.reverse_nil,
      List.nil_append, List.map_cons, List.singleton_append]

theorem destroyLoop_fail (be : Backend) (name : String) (d : Bool) (stks : List Stack)
    (k : Nat) (s : Stack) (e : String) (hk : stks[k]? = some s)
    (hf : be (destroyOp d) k s = some e) :
    ∀ n : Nat, k < n → n ≤ stks.length →
      (∀ j t, k < j → j < n → stks[j]? = some t → be (destroyOp d) j t = none) →
      destroyLoop be name d stks n =
        ((((stks.take n).drop k).reverse).map (Call.mk (destroyOp d)),
          [⟨name, some (errStr name s.StackName e)⟩])
  | 0, hkn, _, _ => absurd hkn (Nat.not_lt_zero k)
  | n + 1, hkn, hn, h => by
    have hlt : n < stks.length := hn
    have hget : stks[n]? = some stks[n] := List.getElem?_eq_getElem hlt
    have htake : stks.take (n + 1) = stks.take n ++ [stks[n]] := by
      rw [List.take_succ, hget]; rfl
    rcases Nat.lt_or_ge k n with hlt2 | hge
    · have h0 : be (destroyOp d) n stks[n] = none := h n _ hlt2 (Nat.lt_succ_self n) hget
      have ih := destroyLoop_fail be name d stks k s e hk hf n hlt2 (Nat.le_of_lt hlt)
        (fun j t hj hjn ht => h j t hj (Nat.lt_succ_of_lt hjn) ht)
      have hklen : k ≤ (stks.take n).length := by
        rw [List.length_take]; omega
      rw [htake, List.drop_append_of_le_length hklen]
      simp only [destroyLoop, hget, h0, ih, List.reverse_append, List.reverse_cons, List.reverse_nil,
        List.nil_append, List.map_cons, List.singleton_append]
    · have hkn2 : k = n := by omega
      subst hkn2
      have hs : stks[k] = s := by
        rw [hget] at hk; exact Option.some.inj hk
      have hklen : (stks.take k).length = k := by
        rw [List.length_take]; omega
      have hdrop : ((stks.take k) ++ [stks[k]]).drop k = [stks[k]] := by
        rw [List.drop_append_of_le_length (Nat.le_of_eq hklen.symm)]
        simp [List.drop_eq_nil_of_le (Nat.le_of_eq hklen)]
      rw [htake, hdrop]
      simp only [destroyLoop, hget, hs, hf]
      simp

theorem deployLoop_op (be : Backend) (name : String) (d : Bool) :
    ∀ (stks : List Stack) (i : Nat), ∀ c ∈ (deployLoop be name d i stks).1, c.op = deployOp d
  | [], _, c, hc => by simp [deployLoop] at hc
  | s :: rest, i, c, hc => by
    rw [deployLoop] at hc
    cases hb : be (deployOp d) i s with
    | some e =>
      rw [hb] at hc
      simp at hc
      rw [hc]
    | none =>
      rw [hb] at hc
      simp only [List.mem_cons] at hc
      rcases hc with hc | hc
      · rw [hc]
      · exact deployLoop_op be name d rest (i + 1) c hc

theorem destroyLoop_op (be : Backend) (name : String) (d : Bool) (stks : List Stack) :
    ∀ n : Nat, ∀ c ∈ (destroyLoop be name d stks n).1, c.op = destroyOp d
  | 0, c, hc => by simp [destroyLoop] at hc
  | n + 1, c, hc => by
    rw [destroyLoop] at hc
    cases hg : stks[n]? with
    | none => rw [hg] at hc; simp at hc
    | some s =>
      rw [hg] at hc
      cases hb : be (destroyOp d) n s with
      | some e =>
        simp only [hb, List.mem_singleton] at hc
        rw [hc]
      | none =>
        simp only [hb, List.mem_cons] at hc
        rcases hc with hc | hc
        · rw [hc]
        · exact destroyLoop_op be name d stks n c hc

theorem deployLoop_congr (be : Backend) (name : String) (d₁ d₂ : Bool)
    (h : ∀ i s, be (deployOp d₁) i s = be (deployOp d₂) i s) :
    ∀ (stks : List Stack) (i : Nat),
      (deployLoop be name d₁ i stks).1.map Call.stack
          = (deployLoop be name d₂ i stks).1.map Call.stack ∧
        (deployLoop be name d₁ i stks).2 = (deployLoop be name d₂ i stks).2
  | [], _ => by simp [deployLoop]
  | s :: rest, i => by
    have ih := deployLoop_congr be name d₁ d₂ h rest (i + 1)
    rw [deployLoop, deployLoop, h i s]
    cases be (deployOp d₂) i s with
    | some e => simp
    | none => simpa using ih

theorem destroyLoop_congr (be : Backend) (name : String) (d₁ d₂ : Bool) (stks : List Stack)
    (h : ∀ i s, be (destroyOp d₁) i s = be (destroyOp d₂) i s) :
    ∀ n : Nat,
      (destroyLoop be name d₁ stks n).1.map Call.stack
          = (destroyLoop be name d₂ stks n).1.map Call.stack ∧
        (destroyLoop be name d₁ stks n).2 = (destroyLoop be name d₂ stks n).2
  | 0 => by simp [destroyLoop]
  | n + 1 => by
    have ih := destroyLoop_congr be name d₁ d₂ stks h n
    rw [destroyLoop, destroyLoop]
    cases stks[n]? with
    | none => simp
    | some s =>
      simp only [h n s]
      cases be (destroyOp d₂) n s with
      | some e => simp
      | none => simpa using ih

/-- Results sent inside either loop: nothing, or one failure. -/
theorem deployLoop_results (be : Backend) (name : String) (d : Bool) :
    ∀ (stks : List Stack) (i : Nat),
      (deployLoop be name d i stks).2 = [] ∨
        ∃ err, (deployLoop be name d i stks).2 = [⟨name, some err⟩]
  | [], _ => Or.inl rfl
  | s :: rest, i => by
    rw [deployLoop]
    cases be (deployOp d) i s with
    | some e => exact Or.inr ⟨_, rfl⟩
    | none => exact deployLoop_results be name d rest (i + 1)

theorem destroyLoop_results (be : Backend) (name : String) (d : Bool) (stks : List Stack) :
    ∀ n : Nat,
      (destroyLoop be name d stks n).2 = [] ∨
        ∃ err, (destroyLoop be name d stks n).2 = [⟨name, some err⟩]
  | 0 => Or.inl rfl
  | n + 1 => by
    rw [destroyLoop]
    cases stks[n]? with
    | none => exact Or.inl rfl
    | some s =>
      cases hb : be (destroyOp d) n s with
      | some e => simp only [hb]; exact Or.inr ⟨_, rfl⟩
      | none => simp only [hb]; exact destroyLoop_results be name d stks n

/-- What a worker sends for one unit: a lone success, or a failure followed by
the success of line 184. -/
theorem executeWork_results (be : Backend) (w : Work) :
    (executeWork be w).2 = [⟨w.JobName, none⟩] ∨
      ∃ err, (executeWork be w).2 = [⟨w.JobName, some err⟩, ⟨w.JobName, none⟩] := by
  unfold executeWork
  cases hm : w.DeployMode with
  | true =>
    rcases deployLoop_results be w.JobName w.DryRun w.Job.Stacks 0 with h | ⟨e, h⟩
    · left; simp [h]
    · right; exact ⟨e, by simp [h]⟩
  | false =>
    rcases destroyLoop_results be w.JobName w.DryRun w.Job.Stacks w.Job.Stacks.length with h | ⟨e, h⟩
    · left; simp [h]
    · right; exact ⟨e, by simp [h]⟩

/-! ## Grouping lemmas -/

theorem jobMapInsert_perm : ∀ (m : JobMap) (j : Job),
    (groupedJobs (jobMapInsert m j)).Perm (groupedJobs m ++ [j])
  | [], j => by simp [jobMapInsert, groupedJobs]
  | (k, jobs) :: rest, j => by
    by_cases h : k = j.Order
    · simp only [jobMapInsert, h, if_true, groupedJobs]
      rw [List.append_assoc, List.append_assoc]
      exact List.Perm.append_left _ List.perm_append_comm
    · simp only [jobMapInsert, h, if_false, groupedJobs]
      rw [List.append_assoc]
      exact List.Perm.append_left _ (jobMapInsert_perm rest j)

theorem jobMapInsert_mem_keys : ∀ (m : JobMap) (j : Job) (k : Int),
    k ∈ jobMapKeys (jobMapInsert m j) ↔ k ∈ jobMapKeys m ∨ k = j.Order
  | [], j, k => by simp [jobMapInsert, jobMapKeys]
  | (k', jobs) :: rest, j, k => by
    by_cases h : k' = j.Order
    · simp only [jobMapInsert, h, if_true, jobMapKeys, List.map_cons, List.mem_cons]
      constructor
      · intro hk; exact Or.inl hk
      · rintro (hk | hk)
        · exact hk
        · exact Or.inl hk
    · have ih := jobMapInsert_mem_keys rest j k
      simp only [jobMapKeys] at ih
      simp only [jobMapInsert, h, if_false, jobMapKeys, List.map_cons, List.mem_cons, ih]
      tauto

theorem jobMapInsert_nodup : ∀ (m : JobMap) (j : Job),
    (jobMapKeys m).Nodup → (jobMapKeys (jobMapInsert m j)).Nodup
  | [], j, _ => by simp [jobMapInsert, jobMapKeys]
  | (k, jobs) :: rest, j, hnd => by
    have hnd2 : k ∉ jobMapKeys rest ∧ (jobMapKeys rest).Nodup := by
      simpa [jobMapKeys] using hnd
    by_cases h : k = j.Order
    · simpa [jobMapInsert, h, jobMapKeys] using hnd
    · have ih := jobMapInsert_nodup rest j hnd2.2
      have hk : k ∉ jobMapKeys (jobMapInsert rest j) := by
        rw [jobMapInsert_mem_keys]
        rintro (hk | hk)
        · exact hnd2.1 hk
        · exact h hk
      have : jobMapKeys ((k, jobs) :: jobMapInsert rest j) = k :: jobMapKeys (jobMapInsert rest j) := rfl
      simp only [jobMapInsert, h, if_false]
      rw [this]
      exact List.nodup_cons.mpr ⟨hk, ih⟩

theorem jobMapInsert_byOrder : ∀ (m : JobMap) (j : Job),
    GroupsByOrder m → GroupsByOrder (jobMapInsert m j)
  | [], j, _ => by
    intro g hg x hx
    simp only [jobMapInsert, List.mem_singleton] at hg
    subst hg
    simp only [List.mem_singleton] at hx
    rw [hx]
  | (k, jobs) :: rest, j, hm => by
    have hhead : ∀ x ∈ jobs, x.Order = k := fun x hx => hm (k, jobs) (List.mem_cons_self _ _) x hx
    have hrest : GroupsByOrder rest := fun g hg => hm g (List.mem_cons_of_mem _ hg)
    by_cases h : k = j.Order
    · intro g hg x hx
      simp only [jobMapInsert, h, if_true, List.mem_cons] at hg
      rcases hg with hg | hg
      · subst hg
        simp only [List.mem_append, List.mem_singleton] at hx
        rcases hx with hx | hx
        · rw [hhead x hx, h]
        · rw [hx]
      · exact hrest g hg x hx
    · intro g hg x hx
      simp only [jobMapInsert, h, if_false, List.mem_cons] at hg
      rcases hg with hg | hg
      · subst hg
        exact hhead x hx
      · exact jobMapInsert_byOrder rest j hrest g hg x hx

theorem foldl_insert_spec : ∀ (jobs : List (String × Job)) (m : JobMap),
    (jobMapKeys m).Nodup → GroupsByOrder m →
    let m' := jobs.foldl (fun m p => jobMapInsert m { p.2 with Name := p.1 }) m
    (groupedJobs m').Perm (groupedJobs m ++ jobs.map named) ∧
      (jobMapKeys m').Nodup ∧ GroupsByOrder m' ∧
      ∀ k, k ∈ jobMapKeys m' ↔ k ∈ jobMapKeys m ∨ ∃ p ∈ jobs, p.2.Order = k
  | [], m, hnd, hm => by simp [hnd, hm]
  | p :: rest, m, hnd, hm => by
    have ih := foldl_insert_spec rest (jobMapInsert m { p.2 with Name := p.1 })
      (jobMapInsert_nodup m _ hnd) (jobMapInsert_byOrder m _ hm)
    simp only [List.foldl_cons]
    refine ⟨?_, ih.2.1, ih.2.2.1, ?_⟩
    · refine ih.1.trans ?_
      have h1 := jobMapInsert_perm m { p.2 with Name := p.1 }
      have h2 := List.Perm.append_right (rest.map named) h1
      simpa [named] using h2
    · intro k
      rw [ih.2.2.2 k, jobMapInsert_mem_keys]
      simp only [List.mem_cons, exists_eq_or_imp]
      constructor
      · rintro ((h | h) | h)
        · exact Or.inl h
        · exact Or.inr (Or.inl h.symm)
        · exact Or.inr (Or.inr h)
      · rintro (h | h | h)
        · exact Or.inl (Or.inl h)
        · exact Or.inl (Or.inr h.symm)
        · exact Or.inr h

theorem buildJobMap_spec (jobs : List (String × Job)) :
    (groupedJobs (buildJobMap jobs)).Perm (jobs.map named) ∧
      (jobMapKeys (buildJobMap jobs)).Nodup ∧ GroupsByOrder (buildJobMap jobs) ∧
      ∀ k, k ∈ jobMapKeys (buildJobMap jobs) ↔ ∃ p ∈ jobs, p.2.Order = k := by
  have h := foldl_insert_spec jobs [] (by simp [jobMapKeys]) (by intro g hg; simp at hg)
  simpa [buildJobMap, groupedJobs, jobMapKeys] using h

theorem groupedJobs_length : ∀ m : JobMap,
    (groupedJobs m).length = (m.map (fun g => g.2.length)).sum
  | [] => rfl
  | (_, jobs) :: rest => by simp [groupedJobs, groupedJobs_length rest]

theorem jobMapGet_mem : ∀ (m : JobMap) (o : Int) (jobs : List Job),
    jobMapGet m o = some jobs → (o, jobs) ∈ m
  | [], _, _, h => by simp [jobMapGet] at h
  | (k, js) :: rest, o, jobs, h => by
    by_cases hk : k = o
    · simp only [jobMapGet, hk, if_true, Option.some.injEq] at h
      rw [hk, h]; exact List.mem_cons_self _ _
    · simp only [jobMapGet, hk, if_false] at h
      exact List.mem_cons_of_mem _ (jobMapGet_mem rest o jobs h)

theorem jobMapGet_of_mem : ∀ (m : JobMap) (o : Int) (jobs : List Job),
    (jobMapKeys m).Nodup → (o, jobs) ∈ m → jobMapGet m o = some jobs
  | [], _, _, _, h => by simp at h
  | (k, js) :: rest, o, jobs, hnd, h => by
    have hnd2 : k ∉ jobMapKeys rest ∧ (jobMapKeys rest).Nodup := by
      simpa [jobMapKeys] using hnd
    rcases List.mem_cons.mp h with h | h
    · have h1 : o = k := (Prod.mk.inj h).1
      have h2 : jobs = js := (Prod.mk.inj h).2
      simp [jobMapGet, h1, h2]
    · have hne : k ≠ o := by
        intro hko
        apply hnd2.1
        rw [hko]
        exact List.mem_map.mpr ⟨(o, jobs), h, rfl⟩
      simp only [jobMapGet, hne, if_false]
      exact jobMapGet_of_mem rest o jobs hnd2.2 h

theorem groupOf_order (m : JobMap) (hm : GroupsByOrder m) (o : Int) :
    ∀ j ∈ groupOf m o, j.Order = o := by
  intro j hj
  unfold groupOf at hj
  cases h : jobMapGet m o with
  | none => rw [h] at hj; simp at hj
  | some jobs =>
    rw [h] at hj
    exact hm (o, jobs) (jobMapGet_mem m o jobs h) j hj

/-! ## Dispatcher lemmas -/

theorem sentWorks_append (a b : List Event) :
    sentWorks (a ++ b) = sentWorks a ++ sentWorks b := by
  induction a with
  | nil => rfl
  | cons e a ih => cases e <;> simp [sentWorks, ih]

theorem recvResults_append (a b : List Event) :
    recvResults (a ++ b) = recvResults a ++ recvResults b := by
  induction a with
  | nil => rfl
  | cons e a ih => cases e <;> simp [recvResults, ih]

theorem cancelCalls_append (a b : List Event) :
    cancelCalls (a ++ b) = cancelCalls a + cancelCalls b := by
  induction a with
  | nil => simp [cancelCalls]
  | cons e a ih =>
    cases e
    · simp [cancelCalls, ih]
    · simp [cancelCalls, ih]
    · simp [cancelCalls, ih]; omega

theorem broadcasts_of_no_cancel (done : Bool) :
    ∀ t : List Event, cancelCalls t = 0 → ∀ rest, broadcasts done (t ++ rest) = broadcasts done rest
  | [], _, _ => rfl
  | Event.send _ :: t, h, rest => by
    simpa [broadcasts] using broadcasts_of_no_cancel done t (by simpa [cancelCalls] using h) rest
  | Event.recv _ :: t, h, rest => by
    simpa [broadcasts] using broadcasts_of_no_cancel done t (by simpa [cancelCalls] using h) rest
  | Event.cancelCtx :: t, h, _ => by simp [cancelCalls] at h

theorem sends_obs (deployMode dryRun : Bool) (cm : CFNManager) :
    ∀ jobs : List Job,
      let sends := jobs.map (fun job => Event.send ⟨job.Name, job, dryRun, deployMode, cm⟩)
      sentWorks sends = jobs.map (mkWork deployMode dryRun cm) ∧
        recvResults sends = [] ∧ cancelCalls sends = 0
  | [] => by simp [sentWorks, recvResults, cancelCalls]
  | j :: rest => by
    have ih := sends_obs deployMode dryRun cm rest
    simp only at ih
    simp [sentWorks, recvResults, cancelCalls, ih, mkWork]

/-- The barrier loop either receives `n` successes, or stops on the first failure
after fewer than `n` successes and calls `cancelCtx` once. -/
theorem awaitResults_spec (results : Nat → Result) :
    ∀ (n pos : Nat),
      ((awaitResults results n pos).2.1 = none ∧
        sentWorks (awaitResults results n pos).1 = [] ∧
        cancelCalls (awaitResults results n pos).1 = 0 ∧
        (recvResults (awaitResults results n pos).1).length = n ∧
        ∀ r ∈ recvResults (awaitResults results n pos).1, r.Error = none) ∨
      (∃ e pre r, (awaitResults results n pos).2.1 = some e ∧
        (awaitResults results n pos).1 = pre ++ [Event.recv r, Event.cancelCtx] ∧
        r.Error = some e ∧ sentWorks pre = [] ∧ cancelCalls pre = 0 ∧
        (recvResults pre).length < n ∧ ∀ r' ∈ recvResults pre, r'.Error = none)
  | 0, pos => by left; simp [awaitResults, sentWorks, cancelCalls, recvResults]
  | n + 1, pos => by
    cases hr : (results pos).Error with
    | some e =>
      right
      refine ⟨e, [], results pos, ?_, ?_, hr, rfl, rfl, ?_, ?_⟩
      · simp [awaitResults, hr]
      · simp [awaitResults, hr]
      · simp [recvResults]
      · intro r' h; simp [recvResults] at h
    | none =>
      rcases awaitResults_spec results n (pos + 1) with ⟨h1, h2, h3, h4, h5⟩ | ⟨e, pre, r, h1, h2, h3, h4, h5, h6, h7⟩
      · left
        refine ⟨?_, ?_, ?_, ?_, ?_⟩
        · simp [awaitResults, hr, h1]
        · simp [awaitResults, hr, sentWorks, h2]
        · simp [awaitResults, hr, cancelCalls, h3]
        · simp [awaitResults, hr, recvResults, h4]
        · intro r' h
          simp only [awaitResults, hr, recvResults, List.mem_cons] at h
          rcases h with h | h
          · rw [h]; exact hr
          · exact h5 r' h
      · right
        refine ⟨e, Event.recv (results pos) :: pre, r, ?_, ?_, h3, ?_, ?_, ?_, ?_⟩
        · simp [awaitResults, hr, h1]
        · simp [awaitResults, hr, h2]
        · simp [sentWorks, h4]
        · simp [cancelCalls, h5]
        · simp [recvResults]; omega
        · intro r' h
          simp only [recvResults, List.mem_cons] at h
          rcases h with h | h
          · rw [h]; exact hr
          · exact h7 r' h

theorem dispatchLoop_absent (m : JobMap) (results : Nat → Result) (dm dr : Bool)
    (cm : CFNManager) (o : Int) (rest : List Int) (pos : Nat) (hg : jobMapGet m o = none) :
    dispatchLoop m results dm dr cm (o :: rest) pos = dispatchLoop m results dm dr cm rest pos := by
  simp [dispatchLoop, hg]

theorem dispatchLoop_pass (m : JobMap) (results : Nat → Result) (dm dr : Bool)
    (cm : CFNManager) (o : Int) (rest : List Int) (pos : Nat) (jobs : List Job)
    (hg : jobMapGet m o = some jobs) (ha : (awaitResults results jobs.length pos).2.1 = none) :
    dispatchLoop m results dm dr cm (o :: rest) pos =
      (jobs.map (fun job => Event.send ⟨job.Name, job, dr, dm, cm⟩) ++
          ((awaitResults results jobs.length pos).1 ++
            (dispatchLoop m results dm dr cm rest (awaitResults results jobs.length pos).2.2).1),
        (dispatchLoop m results dm dr cm rest (awaitResults results jobs.length pos).2.2).2) := by
  rcases h : awaitResults results jobs.length pos with ⟨evs, res, p⟩
  rw [h] at ha
  simp only at ha
  subst ha
  simp [dispatchLoop, hg, h]

theorem dispatchLoop_stop (m : JobMap) (results : Nat → Result) (dm dr : Bool)
    (cm : CFNManager) (o : Int) (rest : List Int) (pos : Nat) (jobs : List Job) (e : String)
    (hg : jobMapGet m o = some jobs) (ha : (awaitResults results jobs.length pos).2.1 = some e) :
    dispatchLoop m results dm dr cm (o :: rest) pos =
      (jobs.map (fun job => Event.send ⟨job.Name, job, dr, dm, cm⟩) ++
          (awaitResults results jobs.length pos).1, Status.failed e) := by
  rcases h : awaitResults results jobs.length pos with ⟨evs, res, p⟩
  rw [h] at ha
  simp only at ha
  subst ha
  simp [dispatchLoop, hg, h]

/-- Shape of every run of the dispatch loop: either all groups are dispatched and
only successes are received, or the loop stops in some group `cur` on the first
failing outcome. -/
theorem dispatchLoop_spec (m : JobMap) (results : Nat → Result) (dm dr : Bool)
    (cm : CFNManager) :
    ∀ (os : List Int) (pos : Nat),
      ((dispatchLoop m results dm dr cm os pos).2 = Status.succeeded ∧
        sentWorks (dispatchLoop m results dm dr cm os pos).1
          = (os.flatMap (groupOf m)).map (mkWork dm dr cm) ∧
        cancelCalls (dispatchLoop m results dm dr cm os pos).1 = 0 ∧
        (recvResults (dispatchLoop m results dm dr cm os pos).1).length
          = (os.flatMap (groupOf m)).length ∧
        ∀ r ∈ recvResults (dispatchLoop m results dm dr cm os pos).1, r.Error = none) ∨
      (∃ e pre r done cur later,
        (dispatchLoop m results dm dr cm os pos).2 = Status.failed e ∧
        (dispatchLoop m results dm dr cm os pos).1 = pre ++ [Event.recv r, Event.cancelCtx] ∧
        r.Error = some e ∧ cancelCalls pre = 0 ∧
        (∀ r' ∈ recvResults pre, r'.Error = none) ∧
        os = done ++ cur :: later ∧
        sentWorks pre = ((done ++ [cur]).flatMap (groupOf m)).map (mkWork dm dr cm) ∧
        (done.flatMap (groupOf m)).length ≤ (recvResults pre).length ∧
        (recvResults pre).length < ((done ++ [cur]).flatMap (groupOf m)).length)
  | [], pos => by left; simp [dispatchLoop, sentWorks, cancelCalls, recvResults]
  | o :: rest, pos => by
    cases hg : jobMapGet m o with
    | none =>
      have hgo : groupOf m o = [] := by simp [groupOf, hg]
      rw [dispatchLoop_absent m results dm dr cm o rest pos hg]
      rcases dispatchLoop_spec m results dm dr cm rest pos with
        ⟨h1, h2, h3, h4, h5⟩ | ⟨e, pre, r, done, cur, later, h1, h2, h3, h4, h5, h6, h7, h8, h9⟩
      · left
        exact ⟨h1, by simp [List.flatMap_cons, hgo, h2], h3, by simp [List.flatMap_cons, hgo, h4], h5⟩
      · right
        refine ⟨e, pre, r, o :: done, cur, later, h1, h2, h3, h4, h5, ?_, ?_, ?_, ?_⟩
        · simp [h6]
        · simpa [List.flatMap_cons, hgo] using h7
        · simpa [List.flatMap_cons, hgo] using h8
        · simpa [List.flatMap_cons, hgo] using h9
    | some jobs =>
      have hgo : groupOf m o = jobs := by simp [groupOf, hg]
      have hs := sends_obs dm dr cm jobs
      simp only at hs
      rcases awaitResults_spec results jobs.length pos with
        ⟨a1, a2, a3, a4, a5⟩ | ⟨e, apre, r, a1, a2, a3, a4, a5, a6, a7⟩
      · rw [dispatchLoop_pass m results dm dr cm o rest pos jobs hg a1]
        rcases dispatchLoop_spec m results dm dr cm rest (awaitResults results jobs.length pos).2.2 with
          ⟨h1, h2, h3, h4, h5⟩ | ⟨e, pre, r, done, cur, later, h1, h2, h3, h4, h5, h6, h7, h8, h9⟩
        · left
          refine ⟨h1, ?_, ?_, ?_, ?_⟩
          · simp [sentWorks_append, hs.1, a2, h2, List.flatMap_cons, hgo]
          · simp [cancelCalls_append, hs.2.2, a3, h3]
          · simp [recvResults_append, hs.2.1, a4, h4, List.flatMap_cons, hgo]
          · intro r' hr'
            simp only [recvResults_append, hs.2.1, List.nil_append, List.mem_append] at hr'
            rcases hr' with hr' | hr'
            · exact a5 r' hr'
            · exact h5 r' hr'
        · right
          refine ⟨e, jobs.map (fun job => Event.send ⟨job.Name, job, dr, dm, cm⟩) ++
            ((awaitResults results jobs.length pos).1 ++ pre), r, o :: done, cur, later,
            h1, ?_, h3, ?_, ?_, ?_, ?_, ?_, ?_⟩
          · simp [h2]
          · simp [cancelCalls_append, hs.2.2, a3, h4]
          · intro r' hr'
            simp only [recvResults_append, hs.2.1, List.nil_append, List.mem_append] at hr'
            rcases hr' with hr' | hr'
            · exact a5 r' hr'
            · exact h5 r' hr'
          · simp [h6]
          · simp [sentWorks_append, hs.1, a2, h7, List.flatMap_cons, hgo]
          · simp only [recvResults_append, hs.2.1, List.nil_append, List.length_append, a4,
              List.cons_append, List.flatMap_cons, hgo]
            omega
          · simp only [recvResults_append, hs.2.1, List.nil_append, List.length_append, a4,
              List.cons_append, List.flatMap_cons, hgo]
            omega
      · right
        rw [dispatchLoop_stop m results dm dr cm o rest pos jobs e hg a1]
        refine ⟨e, jobs.map (fun job => Event.send ⟨job.Name, job, dr, dm, cm⟩) ++ apre, r,
          [], o, rest, rfl, ?_, a3, ?_, ?_, rfl, ?_, ?_, ?_⟩
        · simp [a2]
        · simp [cancelCalls_append, hs.2.2, a5]
        · intro r' hr'
          simp only [recvResults_append, hs.2.1, List.nil_append] at hr'
          exact a7 r' hr'
        · simp [sentWorks_append, hs.1, a4, hgo]
        · simp
        · simpa [recvResults_append, hs.2.1, hgo] using a6

theorem sentOther_append (o : Int) (a b : List Event) :
    sentOther o (a ++ b) = sentOther o a + sentOther o b := by
  induction a with
  | nil => simp [sentOther]
  | cons e a ih =>
    cases e
    · simp [sentOther, ih]; omega
    · simp [sentOther, ih]
    · simp [sentOther, ih]

theorem sentFor_append (o : Int) (a b : List Event) :
    sentFor o (a ++ b) = sentFor o a + sentFor o b := by
  induction a with
  | nil => simp [sentFor]
  | cons e a ih =>
    cases e
    · simp [sentFor, ih]; omega
    · simp [sentFor, ih]
    · simp [sentFor, ih]

theorem sentOther_of_no_send (o : Int) :
    ∀ t : List Event, sentWorks t = [] → sentOther o t = 0
  | [], _ => rfl
  | Event.send _ :: _, h => by simp [sentWorks] at h
  | Event.recv _ :: t, h => by
    simpa [sentOther] using sentOther_of_no_send o t (by simpa [sentWorks] using h)
  | Event.cancelCtx :: t, h => by
    simpa [sentOther] using sentOther_of_no_send o t (by simpa [sentWorks] using h)

theorem sentFor_of_no_send (o : Int) :
    ∀ t : List Event, sentWorks t = [] → sentFor o t = 0
  | [], _ => rfl
  | Event.send _ :: _, h => by simp [sentWorks] at h
  | Event.recv _ :: t, h => by
    simpa [sentFor] using sentFor_of_no_send o t (by simpa [sentWorks] using h)
  | Event.cancelCtx :: t, h => by
    simpa [sentFor] using sentFor_of_no_send o t (by simpa [sentWorks] using h)

theorem append_split {α : Type} (a b pre post : List α) (e : α)
    (h : a ++ b = pre ++ e :: post) :
    (∃ c, a = pre ++ e :: c ∧ post = c ++ b) ∨ (∃ c, pre = a ++ c ∧ b = c ++ e :: post) := by
  rcases List.append_eq_append_iff.mp h with ⟨a', h1, h2⟩ | ⟨c', h1, h2⟩
  · exact Or.inr ⟨a', h1, h2⟩
  · cases c' with
    | nil =>
      right
      exact ⟨[], by simpa using h1.symm, by simpa using h2.symm⟩
    | cons x c2 =>
      left
      have hx : e = x ∧ post = c2 ++ b := by simpa using h2
      exact ⟨c2, by rw [h1, hx.1], hx.2⟩

theorem sentWorks_ne_nil (pre post : List Event) (w : Work) :
    sentWorks (pre ++ Event.send w :: post) ≠ [] := by
  simp [sentWorks_append, sentWorks]

/-- Observations on a prefix of the pushes of one group. -/
theorem group_head_obs (dm dr : Bool) (cm : CFNManager) (o : Int) :
    ∀ (jobs : List Job), (∀ j ∈ jobs, j.Order = o) →
      ∀ pre w c, jobs.map (fun job => Event.send ⟨job.Name, job, dr, dm, cm⟩)
          = pre ++ Event.send w :: c →
        w.Job.Order = o ∧ recvResults pre = [] ∧ sentOther o pre = 0
  | [], _, pre, w, c, h => by simp at h
  | j :: rest, hj, [], w, c, h => by
    have h1 : (⟨j.Name, j, dr, dm, cm⟩ : Work) = w := by
      have := (List.cons.inj h).1
      exact Event.send.inj this
    refine ⟨?_, rfl, rfl⟩
    rw [← h1]
    exact hj j (List.mem_cons_self _ _)
  | j :: rest, hj, e :: pre, w, c, h => by
    have h1 := (List.cons.inj h).1
    have h2 := (List.cons.inj h).2
    have ih := group_head_obs dm dr cm o rest (fun x hx => hj x (List.mem_cons_of_mem _ hx))
      pre w c h2
    refine ⟨ih.1, ?_, ?_⟩
    · rw [← h1]; simpa [recvResults] using ih.2.1
    · rw [← h1]
      have hjo : j.Order = o := hj j (List.mem_cons_self _ _)
      simp [sentOther, hjo, ih.2.2]

theorem group_sentOther (dm dr : Bool) (cm : CFNManager) (o o' : Int) (hne : o ≠ o') :
    ∀ (jobs : List Job), (∀ j ∈ jobs, j.Order = o) →
      sentOther o' (jobs.map (fun job => Event.send ⟨job.Name, job, dr, dm, cm⟩)) = jobs.length
  | [], _ => by simp [sentOther]
  | j :: rest, hj => by
    have ih := group_sentOther dm dr cm o o' hne rest (fun x hx => hj x (List.mem_cons_of_mem _ hx))
    have hjo : j.Order = o := hj j (List.mem_cons_self _ _)
    simp [sentOther, hjo, hne, ih]
    omega

/-- Barrier invariant of the dispatch loop: when a unit of group `w.Job.Order` is
pushed, the outcomes received so far are as many as the units pushed so far for
all other groups. -/
theorem dispatchLoop_barrier (m : JobMap) (hm : GroupsByOrder m) (results : Nat → Result)
    (dm dr : Bool) (cm : CFNManager) :
    ∀ (os : List Int) (pos : Nat), os.Nodup →
      ∀ pre w post, (dispatchLoop m results dm dr cm os pos).1 = pre ++ Event.send w :: post →
        w.Job.Order ∈ os ∧ (recvResults pre).length = sentOther w.Job.Order pre
  | [], pos, _, pre, w, post, h => by simp [dispatchLoop] at h
  | o :: rest, pos, hnd, pre, w, post, h => by
    have hnd2 := List.nodup_cons.mp hnd
    cases hg : jobMapGet m o with
    | none =>
      rw [dispatchLoop_absent m results dm dr cm o rest pos hg] at h
      have ih := dispatchLoop_barrier m hm results dm dr cm rest pos hnd2.2 pre w post h
      exact ⟨List.mem_cons_of_mem _ ih.1, ih.2⟩
    | some jobs =>
      have hjobs : ∀ j ∈ jobs, j.Order = o :=
        fun j hj => hm (o, jobs) (jobMapGet_mem m o jobs hg) j hj
      have hs := sends_obs dm dr cm jobs
      simp only at hs
      have inGroup : ∀ c, jobs.map (fun job => Event.send ⟨job.Name, job, dr, dm, cm⟩)
          = pre ++ Event.send w :: c →
          w.Job.Order ∈ o :: rest ∧ (recvResults pre).length = sentOther w.Job.Order pre := by
        intro c hc
        have hp := group_head_obs dm dr cm o jobs hjobs pre w c hc
        refine ⟨by rw [hp.1]; exact List.mem_cons_self _ _, ?_⟩
        rw [hp.1, hp.2.1, hp.2.2]; rfl
      rcases awaitResults_spec results jobs.length pos with
        ⟨a1, a2, a3, a4, a5⟩ | ⟨e, apre, r, a1, a2, a3, a4, a5, a6, a7⟩
      · rw [dispatchLoop_pass m results dm dr cm o rest pos jobs hg a1] at h
        rcases append_split _ _ _ _ _ h with ⟨c, hc, _⟩ | ⟨c, hc1, hc2⟩
        · exact inGroup c hc
        · rcases append_split _ _ _ _ _ hc2 with ⟨c', hc', _⟩ | ⟨c', hc1', hc2'⟩
          · exact absurd (hc' ▸ a2) (sentWorks_ne_nil c c' w)
          · have ih := dispatchLoop_barrier m hm results dm dr cm rest _ hnd2.2 c' w post hc2'
            have hne : o ≠ w.Job.Order := fun heq => hnd2.1 (heq ▸ ih.1)
            refine ⟨List.mem_cons_of_mem _ ih.1, ?_⟩
            rw [hc1, hc1', recvResults_append, recvResults_append, sentOther_append,
              sentOther_append, group_sentOther dm dr cm o _ hne jobs hjobs, hs.2.1]
            have hz : sentOther w.Job.Order (awaitResults results jobs.length pos).1 = 0 :=
              sentOther_of_no_send _ _ a2
            rw [hz]
            simp only [List.nil_append, List.length_append, a4, ih.2]
            omega
      · rw [dispatchLoop_stop m results dm dr cm o rest pos jobs e hg a1] at h
        rcases append_split _ _ _ _ _ h with ⟨c, hc, _⟩ | ⟨c, _, hc2⟩
        · exact inGroup c hc
        · have hsw : sentWorks (awaitResults results jobs.length pos).1 = [] := by
            rw [a2]; simp [sentWorks_append, a4, sentWorks]
          exact absurd (hc2 ▸ hsw) (sentWorks_ne_nil c post w)

/-! ## Order keys -/

theorem sortOrders_perm (deployMode : Bool) (ks : List Int) :
    (sortOrders deployMode ks).Perm ks := by
  unfold sortOrders
  cases deployMode
  · exact List.perm_insertionSort _ ks
  · exact List.perm_insertionSort _ ks

theorem sortOrders_asc (ks : List Int) : (sortOrders true ks).Sorted (fun a b => a ≤ b) := by
  simpa [sortOrders] using List.sorted_insertionSort (fun a b : Int => a ≤ b) ks

theorem sortOrders_desc (ks : List Int) : (sortOrders false ks).Sorted (fun a b => a ≥ b) := by
  simpa [sortOrders] using List.sorted_insertionSort (fun a b : Int => a ≥ b) ks

theorem sortOrders_of_perm (deployMode : Bool) (ks ks' : List Int) (h : ks.Perm ks') :
    sortOrders deployMode ks = sortOrders deployMode ks' := by
  have hp : (sortOrders deployMode ks).Perm (sortOrders deployMode ks') :=
    ((sortOrders_perm deployMode ks).trans h).trans (sortOrders_perm deployMode ks').symm
  cases deployMode
  · exact List.eq_of_perm_of_sorted hp (sortOrders_desc ks) (sortOrders_desc ks')
  · exact List.eq_of_perm_of_sorted hp (sortOrders_asc ks) (sortOrders_asc ks')

theorem applyOrders_nodup (cc : ComposeConfig) (deployMode : Bool) :
    (applyOrders cc deployMode).Nodup :=
  (sortOrders_perm deployMode _).nodup_iff.mpr (buildJobMap_spec cc.Jobs).2.1

theorem applyOrders_mem (cc : ComposeConfig) (deployMode : Bool) (k : Int) :
    k ∈ applyOrders cc deployMode ↔ ∃ p ∈ cc.Jobs, p.2.Order = k := by
  unfold applyOrders
  rw [(sortOrders_perm deployMode _).mem_iff]
  exact (buildJobMap_spec cc.Jobs).2.2.2 k

theorem applyOrders_asc (cc : ComposeConfig) :
    (applyOrders cc true).Sorted (fun a b => a < b) :=
  (sortOrders_asc _).lt_of_le (applyOrders_nodup cc true)

theorem applyOrders_desc (cc : ComposeConfig) :
    (applyOrders cc false).Sorted (fun a b => a > b) :=
  (sortOrders_desc _).gt_of_ge (applyOrders_nodup cc false)

/-- Keys of the units pushed for a sequence of groups: constant inside a group,
following the keys from group to group. -/
theorem group_keys_pairwise (m : JobMap) (hm : GroupsByOrder m) (dm dr : Bool) (cm : CFNManager)
    (R R' : Int → Int → Prop) (hrefl : ∀ a, R' a a) (himp : ∀ a b, R a b → R' a b) :
    ∀ os : List Int, os.Pairwise R →
      ((((os.flatMap (groupOf m)).map (mkWork dm dr cm)).map (fun w => w.Job.Order)).Pairwise R') ∧
        ∀ x ∈ ((os.flatMap (groupOf m)).map (mkWork dm dr cm)).map (fun w => w.Job.Order), x ∈ os
  | [], _ => by simp
  | o :: rest, h => by
    have hp := List.pairwise_cons.mp h
    have ih := group_keys_pairwise m hm dm dr cm R R' hrefl himp rest hp.2
    have hgo : ∀ x ∈ ((groupOf m o).map (mkWork dm dr cm)).map (fun w => w.Job.Order), x = o := by
      intro x hx
      simp only [List.map_map, List.mem_map, Function.comp] at hx
      rcases hx with ⟨j, hj, hjx⟩
      rw [← hjx]
      exact groupOf_order m hm o j hj
    constructor
    · simp only [List.flatMap_cons, List.map_append]
      rw [List.pairwise_append]
      refine ⟨?_, ih.1, ?_⟩
      · apply List.pairwise_of_forall_mem_list
        intro a ha b hb
        rw [hgo a ha, hgo b hb]
        exact hrefl o
      · intro a ha b hb
        rw [hgo a ha]
        exact himp _ _ (hp.1 b (ih.2 b hb))
    · intro x hx
      simp only [List.flatMap_cons, List.map_append, List.mem_append] at hx
      rcases hx with hx | hx
      · rw [hgo x hx]; exact List.mem_cons_self _ _
      · exact List.mem_cons_of_mem _ (ih.2 x hx)

/-! ## Runs of `Apply` -/

theorem Apply_ok (cc : ComposeConfig) (logLevel : Int) (dm dr : Bool) (s : Nat)
    (results : Nat → Result) :
    Apply cc logLevel dm dr (Except.ok s) results =
      ⟨(dispatchLoop (buildJobMap cc.Jobs) results dm dr ⟨s⟩ (applyOrders cc dm) 0).1
          ++ [Event.cancelCtx],
        (dispatchLoop (buildJobMap cc.Jobs) results dm dr ⟨s⟩ (applyOrders cc dm) 0).2⟩ := rfl

theorem Apply_error (cc : ComposeConfig) (logLevel : Int) (dm dr : Bool) (err : String)
    (results : Nat → Result) :
    Apply cc logLevel dm dr (Except.error err) results = ⟨[], Status.setupFailed err⟩ := rfl

/-- Shape of a run of `Apply` once the session is available. -/
theorem Apply_spec (cc : ComposeConfig) (logLevel : Int) (dm dr : Bool) (s : Nat)
    (results : Nat → Result) :
    ((Apply cc logLevel dm dr (Except.ok s) results).status = Status.succeeded ∧
      sentWorks (Apply cc logLevel dm dr (Except.ok s) results).trace
        = ((applyOrders cc dm).flatMap (groupOf (buildJobMap cc.Jobs))).map (mkWork dm dr ⟨s⟩) ∧
      (recvResults (Apply cc logLevel dm dr (Except.ok s) results).trace).length
        = ((applyOrders cc dm).flatMap (groupOf (buildJobMap cc.Jobs))).length ∧
      ∀ r ∈ recvResults (Apply cc logLevel dm dr (Except.ok s) results).trace, r.Error = none) ∨
    (∃ e pre r done cur later,
      (Apply cc logLevel dm dr (Except.ok s) results).status = Status.failed e ∧
      (Apply cc logLevel dm dr (Except.ok s) results).trace
        = pre ++ [Event.recv r, Event.cancelCtx, Event.cancelCtx] ∧
      r.Error = some e ∧ cancelCalls pre = 0 ∧
      (∀ r' ∈ recvResults pre, r'.Error = none) ∧
      applyOrders cc dm = done ++ cur :: later ∧
      sentWorks pre
        = ((done ++ [cur]).flatMap (groupOf (buildJobMap cc.Jobs))).map (mkWork dm dr ⟨s⟩) ∧
      (done.flatMap (groupOf (buildJobMap cc.Jobs))).length ≤ (recvResults pre).length ∧
      (recvResults pre).length
        < ((done ++ [cur]).flatMap (groupOf (buildJobMap cc.Jobs))).length) := by
  rw [Apply_ok]
  rcases dispatchLoop_spec (buildJobMap cc.Jobs) results dm dr ⟨s⟩ (applyOrders cc dm) 0 with
    ⟨h1, h2, _, h4, h5⟩ | ⟨e, pre, r, done, cur, later, h1, h2, h3, h4, h5, h6, h7, h8, h9⟩
  · left
    refine ⟨h1, ?_, ?_, ?_⟩
    · simp [sentWorks_append, sentWorks, h2]
    · simp [recvResults_append, recvResults, h4]
    · intro r hr
      simp only [recvResults_append, recvResults, List.append_nil] at hr
      exact h5 r hr
  · right
    refine ⟨e, pre, r, done, cur, later, h1, ?_, h3, h4, h5, h6, h7, h8, h9⟩
    simp [h2]

theorem mem_groupedJobs : ∀ (m : JobMap) (g : Int × List Job) (j : Job),
    g ∈ m → j ∈ g.2 → j ∈ groupedJobs m
  | [], _, _, h, _ => by simp at h
  | (k, jobs) :: rest, g, j, h, hj => by
    simp only [groupedJobs, List.mem_append]
    rcases List.mem_cons.mp h with h | h
    · left; rw [h] at hj; exact hj
    · right; exact mem_groupedJobs rest g j h hj

theorem groupedJobs_mem : ∀ (m : JobMap) (j : Job),
    j ∈ groupedJobs m → ∃ g ∈ m, j ∈ g.2
  | [], _, h => by simp [groupedJobs] at h
  | (k, jobs) :: rest, j, h => by
    simp only [groupedJobs, List.mem_append] at h
    rcases h with h | h
    · exact ⟨(k, jobs), List.mem_cons_self _ _, h⟩
    · rcases groupedJobs_mem rest j h with ⟨g, hg, hj⟩
      exact ⟨g, List.mem_cons_of_mem _ hg, hj⟩

/-- Every job of a dispatched group is an entry of `cc.Jobs` carrying its key as name. -/
theorem groupOf_from_config (jobs : List (String × Job)) (o : Int) :
    ∀ j ∈ groupOf (buildJobMap jobs) o, ∃ p ∈ jobs, j = named p := by
  intro j hj
  unfold groupOf at hj
  cases h : jobMapGet (buildJobMap jobs) o with
  | none => rw [h] at hj; simp at hj
  | some js =>
    rw [h] at hj
    have h1 := mem_groupedJobs _ (o, js) j (jobMapGet_mem _ o js h) hj
    have h2 := (buildJobMap_spec jobs).1.mem_iff.mp h1
    rcases List.mem_map.mp h2 with ⟨p, hp, hpj⟩
    exact ⟨p, hp, hpj.symm⟩

theorem executeWork_deploy (be : Backend) (w : Work) (h : w.DeployMode = true) :
    executeWork be w =
      ((deployLoop be w.JobName w.DryRun 0 w.Job.Stacks).1,
        (deployLoop be w.JobName w.DryRun 0 w.Job.Stacks).2 ++ [⟨w.JobName, none⟩]) := by
  simp [executeWork, h]

theorem executeWork_destroy (be : Backend) (w : Work) (h : w.DeployMode = false) :
    executeWork be w =
      ((destroyLoop be w.JobName w.DryRun w.Job.Stacks w.Job.Stacks.length).1,
        (destroyLoop be w.JobName w.DryRun w.Job.Stacks w.Job.Stacks.length).2
          ++ [⟨w.JobName, none⟩]) := by
  simp [executeWork, h]

theorem map_stack_mk (op : StackOp) (l : List Stack) :
    (l.map (Call.mk op)).map Call.stack = l := by
  induction l with
  | nil => rfl
  | cons a l ih => simp [ih]

/-- What the worker does when the first failure in walk order is at index `k`. -/
theorem executeWork_fail (be : Backend) (w : Work) (k : Nat) (s : Stack) (e : String)
    (hk : w.Job.Stacks[k]? = some s) (hf : be (workOp w) k s = some e)
    (hfirst : ∀ j t, (if w.DeployMode then j < k else k < j) →
      w.Job.Stacks[j]? = some t → be (workOp w) j t = none) :
    executeWork be w =
      ((if w.DeployMode then w.Job.Stacks.take (k + 1) else (w.Job.Stacks.drop k).reverse).map
          (Call.mk (workOp w)),
        [⟨w.JobName, some (errStr w.JobName s.StackName e)⟩, ⟨w.JobName, none⟩]) := by
  have hklt : k < w.Job.Stacks.length := by
    rcases Nat.lt_or_ge k w.Job.Stacks.length with h | h
    · exact h
    · rw [List.getElem?_eq_none h] at hk; cases hk
  cases hm : w.DeployMode with
  | true =>
    simp only [workOp, hm, if_true] at hf hfirst
    have h := deployLoop_fail be w.JobName w.DryRun w.Job.Stacks 0 k s e hk
      (by simpa using hf) (by intro j t hj ht; simpa using hfirst j t hj ht)
    rw [executeWork_deploy be w hm, h]
    simp [workOp, hm]
  | false =>
    simp only [workOp, hm, if_false, Bool.false_eq_true] at hf hfirst
    have h := destroyLoop_fail be w.JobName w.DryRun w.Job.Stacks k s e hk hf
      w.Job.Stacks.length hklt (Nat.le_refl _) (fun j t hj _ ht => hfirst j t hj ht)
    rw [executeWork_destroy be w hm, h]
    simp [workOp, hm]

/-- The units pushed in a run are those of an initial segment of the order keys. -/
theorem Apply_sent (cc : ComposeConfig) (logLevel : Int) (dm dr : Bool)
    (sess : Except String Nat) (results : Nat → Result) :
    ∃ cm os later, applyOrders cc dm = os ++ later ∧
      sentWorks (Apply cc logLevel dm dr sess results).trace
        = (os.flatMap (groupOf (buildJobMap cc.Jobs))).map (mkWork dm dr cm) := by
  cases sess with
  | error err => exact ⟨⟨0⟩, [], applyOrders cc dm, rfl, rfl⟩
  | ok s =>
    rcases Apply_spec cc logLevel dm dr s results with
      ⟨_, h2, _, _⟩ | ⟨e, pre, r, done, cur, later, _, h2, _, _, _, h6, h7, _, _⟩
    · exact ⟨⟨s⟩, applyOrders cc dm, [], by simp, h2⟩
    · refine ⟨⟨s⟩, done ++ [cur], later, by simp [h6], ?_⟩
      rw [h2, sentWorks_append, h7]
      simp [sentWorks]

theorem Apply_sent_keys (cc : ComposeConfig) (logLevel : Int) (dm dr : Bool)
    (sess : Except String Nat) (results : Nat → Result)
    (R R' : Int → Int → Prop) (hrefl : ∀ a, R' a a) (himp : ∀ a b, R a b → R' a b)
    (hR : (applyOrders cc dm).Pairwise R) :
    ((sentWorks (Apply cc logLevel dm dr sess results).trace).map
        (fun w => w.Job.Order)).Pairwise R' := by
  rcases Apply_sent cc logLevel dm dr sess results with ⟨cm, os, later, h1, h2⟩
  rw [h2]
  have hos : os.Pairwise R := by
    rw [h1] at hR
    exact (List.pairwise_append.mp hR).1
  exact (group_keys_pairwise _ (buildJobMap_spec cc.Jobs).2.2.1 dm dr cm R R' hrefl himp os hos).1

theorem Apply_sent_sorted (cc : ComposeConfig) (logLevel : Int) (dm dr : Bool)
    (sess : Except String Nat) (results : Nat → Result) :
    (dm = true → ((sentWorks (Apply cc logLevel dm dr sess results).trace).map
        (fun w => w.Job.Order)).Pairwise (fun a b => a ≤ b)) ∧
      (dm = false → ((sentWorks (Apply cc logLevel dm dr sess results).trace).map
        (fun w => w.Job.Order)).Pairwise (fun a b => a ≥ b)) := by
  constructor
  · intro h
    subst h
    exact Apply_sent_keys cc logLevel true dr sess results (fun a b => a < b) (fun a b => a ≤ b)
      (fun a => Int.le_refl a) (fun a b hab => Int.le_of_lt hab) (applyOrders_asc cc)
  · intro h
    subst h
    exact Apply_sent_keys cc logLevel false dr sess results (fun a b => a > b) (fun a b => a ≥ b)
      (fun a => Int.le_refl a) (fun a b hab => Int.le_of_lt hab) (applyOrders_desc cc)

theorem sentOther_add_sentFor (o : Int) :
    ∀ t : List Event, sentOther o t + sentFor o t = (sentWorks t).length
  | [] => rfl
  | Event.send w :: t => by
    have ih := sentOther_add_sentFor o t
    by_cases h : w.Job.Order = o
    · simp [sentOther, sentFor, sentWorks, h]; omega
    · simp [sentOther, sentFor, sentWorks, h]; omega
  | Event.recv _ :: t => by simpa [sentOther, sentFor, sentWorks] using sentOther_add_sentFor o t
  | Event.cancelCtx :: t => by
    simpa [sentOther, sentFor, sentWorks] using sentOther_add_sentFor o t

theorem sentFor_eq_zero (o : Int) :
    ∀ t : List Event, (∀ x ∈ sentWorks t, x.Job.Order ≠ o) → sentFor o t = 0
  | [], _ => rfl
  | Event.send w :: t, h => by
    have hw : w.Job.Order ≠ o := h w (by simp [sentWorks])
    have ih := sentFor_eq_zero o t (fun x hx => h x (by simp [sentWorks, hx]))
    simp [sentFor, hw, ih]
  | Event.recv _ :: t, h => by
    simpa [sentFor] using sentFor_eq_zero o t (fun x hx => h x (by simpa [sentWorks] using hx))
  | Event.cancelCtx :: t, h => by
    simpa [sentFor] using sentFor_eq_zero o t (fun x hx => h x (by simpa [sentWorks] using hx))

theorem sentOther_eq_zero (o : Int) :
    ∀ t : List Event, (∀ x ∈ sentWorks t, x.Job.Order = o) → sentOther o t = 0
  | [], _ => rfl
  | Event.send w :: t, h => by
    have hw : w.Job.Order = o := h w (by simp [sentWorks])
    have ih := sentOther_eq_zero o t (fun x hx => h x (by simp [sentWorks, hx]))
    simp [sentOther, hw, ih]
  | Event.recv _ :: t, h => by
    simpa [sentOther] using sentOther_eq_zero o t (fun x hx => h x (by simpa [sentWorks] using hx))
  | Event.cancelCtx :: t, h => by
    simpa [sentOther] using sentOther_eq_zero o t (fun x hx => h x (by simpa [sentWorks] using hx))

/-- In a key sequence that is monotone for an antisymmetric relation, equal keys
are contiguous. -/
theorem pairwise_block_sep (R' : Int → Int → Prop) (hanti : ∀ a b, R' a b → R' b a → a = b)
    (A B P : List Int) (k k' : Int) (h : (A ++ k :: (B ++ k' :: P)).Pairwise R')
    (hne : k ≠ k') : k' ∉ A ∧ k ∉ P := by
  have h1 := List.pairwise_append.mp h
  have h2 := List.pairwise_cons.mp h1.2.1
  have hkk' : R' k k' := h2.1 k' (by simp)
  have h3 := List.pairwise_append.mp h2.2
  have h4 := List.pairwise_cons.mp h3.2.1
  constructor
  · intro hk'
    exact hne (hanti k k' hkk' (h1.2.2 k' hk' k (by simp)))
  · intro hk
    exact hne (hanti k k' hkk' (h4.1 k hk))

/-- Barrier invariant on the trace of `Apply`. -/
theorem Apply_barrier (cc : ComposeConfig) (logLevel : Int) (dm dr : Bool)
    (sess : Except String Nat) (results : Nat → Result) (pre post : List Event) (w : Work)
    (h : (Apply cc logLevel dm dr sess results).trace = pre ++ Event.send w :: post) :
    (recvResults pre).length = sentOther w.Job.Order pre := by
  cases sess with
  | error err => rw [Apply_error] at h; simp at h
  | ok s =>
    rw [Apply_ok] at h
    rcases append_split _ _ _ _ _ h with ⟨c, hc, _⟩ | ⟨c, _, hc2⟩
    · exact (dispatchLoop_barrier _ (buildJobMap_spec cc.Jobs).2.2.1 results dm dr ⟨s⟩
        (applyOrders cc dm) 0 (applyOrders_nodup cc dm) pre w c hc).2
    · have hsw : sentWorks [Event.cancelCtx] = [] := rfl
      exact absurd (hc2 ▸ hsw) (sentWorks_ne_nil c post w)

theorem map_job_mkWork (dm dr : Bool) (cm : CFNManager) (l : List Job) :
    (l.map (mkWork dm dr cm)).map Work.Job = l := by
  induction l with
  | nil => rfl
  | cons a l ih => simp [mkWork, ih]

/-- Shape of a failed run of `Apply`. -/
theorem Apply_failed (cc : ComposeConfig) (logLevel : Int) (dm dr : Bool)
    (sess : Except String Nat) (results : Nat → Result) (e : String)
    (hfail : (Apply cc logLevel dm dr sess results).status = Status.failed e) :
    ∃ s pre r done cur later, sess = Except.ok s ∧
      (Apply cc logLevel dm dr sess results).trace
        = pre ++ [Event.recv r, Event.cancelCtx, Event.cancelCtx] ∧
      r.Error = some e ∧ cancelCalls pre = 0 ∧
      (∀ r' ∈ recvResults pre, r'.Error = none) ∧
      applyOrders cc dm = done ++ cur :: later ∧
      sentWorks pre
        = ((done ++ [cur]).flatMap (groupOf (buildJobMap cc.Jobs))).map (mkWork dm dr ⟨s⟩) ∧
      (done.flatMap (groupOf (buildJobMap cc.Jobs))).length ≤ (recvResults pre).length ∧
      (recvResults pre).length
        < ((done ++ [cur]).flatMap (groupOf (buildJobMap cc.Jobs))).length := by
  cases sess with
  | error err => rw [Apply_error] at hfail; cases hfail
  | ok s =>
    rcases Apply_spec cc logLevel dm dr s results with
      ⟨h1, _, _, _⟩ | ⟨e', pre, r, done, cur, later, h1, h2, h3, h4, h5, h6, h7, h8, h9⟩
    · rw [h1] at hfail; cases hfail
    · rw [h1] at hfail
      have he : e' = e := Status.failed.inj hfail
      subst he
      exact ⟨s, pre, r, done, cur, later, rfl, h2, h3, h4, h5, h6, h7, h8, h9⟩

/-- A run that receives a failing outcome ends as failed. -/
theorem Apply_failed_of_recv (cc : ComposeConfig) (logLevel : Int) (dm dr : Bool)
    (sess : Except String Nat) (results : Nat → Result)
    (h : ∃ r ∈ recvResults (Apply cc logLevel dm dr sess results).trace, r.Error ≠ none) :
    ∃ e, (Apply cc logLevel dm dr sess results).status = Status.failed e := by
  cases sess with
  | error err =>
    rcases h with ⟨r, hr, _⟩
    rw [Apply_error] at hr
    simp [recvResults] at hr
  | ok s =>
    rcases Apply_spec cc logLevel dm dr s results with
      ⟨_, _, _, h4⟩ | ⟨e, _, _, _, _, _, h1, _⟩
    · rcases h with ⟨r, hr, hne⟩
      exact absurd (h4 r hr) hne
    · exact ⟨e, h1⟩

theorem broadcasts_failed (pre : List Event) (r : Result) (h : cancelCalls pre = 0) :
    broadcasts false (pre ++ [Event.recv r, Event.cancelCtx, Event.cancelCtx]) = 1 := by
  rw [broadcasts_of_no_cancel false pre h]
  rfl

/-! ## Claims -/

/-- C1: the grouping loop of `Apply` puts every job of `cc.Jobs` in exactly one
group: the groups together are a permutation of the input jobs (each carrying its
key as name), the group keys are pairwise distinct, every job of a group has the
group key as its `Order`, the group sizes add up to the number of jobs, every
input job is found in the group looked up under its own `Order`, and with
distinct job names no job occurs twice. -/
theorem grouping_partitions_jobs (jobs : List (String × Job)) :
    (groupedJobs (buildJobMap jobs)).Perm (jobs.map named) ∧
      (jobMapKeys (buildJobMap jobs)).Nodup ∧
      (∀ g ∈ buildJobMap jobs, ∀ j ∈ g.2, j.Order = g.1) ∧
      ((buildJobMap jobs).map (fun g => g.2.length)).sum = jobs.length ∧
      (∀ p ∈ jobs, named p ∈ groupOf (buildJobMap jobs) p.2.Order) ∧
      ((jobs.map Prod.fst).Nodup → (groupedJobs (buildJobMap jobs)).Nodup) := by
  have hs := buildJobMap_spec jobs
  refine ⟨hs.1, hs.2.1, hs.2.2.1, ?_, ?_, ?_⟩
  · rw [← groupedJobs_length, hs.1.length_eq, List.length_map]
  · intro p hp
    have h1 : named p ∈ groupedJobs (buildJobMap jobs) :=
      hs.1.mem_iff.mpr (List.mem_map.mpr ⟨p, hp, rfl⟩)
    rcases groupedJobs_mem _ _ h1 with ⟨g, hg, hj⟩
    have hkey : g.1 = p.2.Order := (hs.2.2.1 g hg (named p) hj).symm
    have hget := jobMapGet_of_mem _ g.1 g.2 hs.2.1 hg
    rw [hkey] at hget
    simp [groupOf, hget, hj]
  · intro hnd
    rw [hs.1.nodup_iff]
    apply List.Nodup.of_map Job.Name
    have : (jobs.map named).map Job.Name = jobs.map Prod.fst := by
      simp [named, Function.comp_def]
    rw [this]
    exact hnd

/-- The scenario of the specification instantiates C1 (distinct names). -/
theorem grouping_partitions_jobs_witness :
    (scenarioJobs.map Prod.fst).Nodup ∧ (groupedJobs (buildJobMap scenarioJobs)).Nodup :=
  ⟨by decide, (grouping_partitions_jobs scenarioJobs).2.2.2.2.2 (by decide)⟩

/-- C4: when every operation on the stacks of the job succeeds, a unit of work
invokes one stack operation per stack, on `job.Stacks` in input order in deploy
mode and on `job.Stacks` reversed in destroy mode, whatever the dry-run flag. -/
theorem all_succeed_walk_order (be : Backend) (w : Work)
    (hok : ∀ i s, w.Job.Stacks[i]? = some s → be (workOp w) i s = none) :
    (executeWork be w).1.map Call.stack
        = (if w.DeployMode then w.Job.Stacks else w.Job.Stacks.reverse) ∧
      (executeWork be w).1.length = w.Job.Stacks.length ∧
      ∀ c ∈ (executeWork be w).1, c.op = workOp w := by
  cases hm : w.DeployMode with
  | true =>
    simp only [workOp, hm, if_true] at hok
    have h := deployLoop_ok be w.JobName w.DryRun w.Job.Stacks 0
      (by intro j s hj; simpa using hok j s hj)
    rw [executeWork_deploy be w hm, h]
    refine ⟨by rw [map_stack_mk]; simp, by simp, ?_⟩
    intro c hc
    rcases List.mem_map.mp hc with ⟨x, _, hx⟩
    rw [← hx]; simp [workOp, hm]
  | false =>
    simp only [workOp, hm, if_false, Bool.false_eq_true] at hok
    have h := destroyLoop_ok be w.JobName w.DryRun w.Job.Stacks w.Job.Stacks.length
      (Nat.le_refl _) (fun j s _ hs => hok j s hs)
    rw [executeWork_destroy be w hm, h]
    refine ⟨by rw [map_stack_mk, List.take_length]; simp, by simp, ?_⟩
    intro c hc
    rcases List.mem_map.mp hc with ⟨x, _, hx⟩
    rw [← hx]; simp [workOp, hm]

/-- Job `A` deployed on a backend that never fails: `s1` then `s2`. -/
theorem all_succeed_walk_order_witness :
    (executeWork okBackend unitA).1.map Call.stack = [⟨"s1"⟩, ⟨"s2"⟩] :=
  (all_succeed_walk_order okBackend unitA (fun _ _ _ => rfl)).1

/-- C5: if the first failing stack operation in walk order is the one on the
stack at index `k` (lowest failing index on deploy, highest on destroy), the
stacks operated on are exactly the walk-order prefix ending at that stack:
`job.Stacks[0..k]` on deploy, `job.Stacks[k..]` reversed on destroy; the call
count is `k + 1`, respectively `len - k`. -/
theorem stops_at_first_failure (be : Backend) (w : Work) (k : Nat) (s : Stack) (e : String)
    (hk : w.Job.Stacks[k]? = some s) (hf : be (workOp w) k s = some e)
    (hfirst : ∀ j t, (if w.DeployMode then j < k else k < j) →
      w.Job.Stacks[j]? = some t → be (workOp w) j t = none) :
    (executeWork be w).1.map Call.stack
        = (if w.DeployMode then w.Job.Stacks.take (k + 1) else (w.Job.Stacks.drop k).reverse) ∧
      (executeWork be w).1.length
        = (if w.DeployMode then k + 1 else w.Job.Stacks.length - k) := by
  have hklt : k < w.Job.Stacks.length := by
    rcases Nat.lt_or_ge k w.Job.Stacks.length with h | h
    · exact h
    · rw [List.getElem?_eq_none h] at hk; cases hk
  rw [executeWork_fail be w k s e hk hf hfirst]
  refine ⟨map_stack_mk _ _, ?_⟩
  cases w.DeployMode with
  | true => simp; omega
  | false => simp

/-- Job `A` deployed on a backend failing at index 0: only `s1` is operated on. -/
theorem stops_at_first_failure_witness :
    (executeWork failAt0 unitA).1.map Call.stack = [⟨"s1"⟩] ∧
      (executeWork failAt0 unitA).1.length = 1 :=
  stops_at_first_failure failAt0 unitA 0 ⟨"s1"⟩ "boom" rfl rfl
    (fun j _ hj _ => absurd hj (Nat.not_lt_zero j))

/-- C6 (divergence): for job `A` with a failing first stack the worker sends two
outcomes for the one unit, the failure and then the success of line 184. -/
theorem failing_unit_sends_two_outcomes :
    (executeWork failAt0 unitA).2
        = [⟨"A", some "[JOB: A] [STACK: s1]. Error: boom\n"⟩, ⟨"A", none⟩] ∧
      (ExecuteJob (fun _ => failAt0) [Selected.work unitA, Selected.done]).2
        = [⟨"A", some "[JOB: A] [STACK: s1]. Error: boom\n"⟩, ⟨"A", none⟩] := by
  decide

/-- C9: with the dry-run flag set a unit of work invokes only `ApplyDryRun`
(deploy) or `DestoryDryRun` (destroy), with the flag clear only `ApplyChanges`
or `Destroy`; and when the dry-run and the real operation return the same result
on every stack, the stacks visited and the outcomes sent are the same for both
values of the flag. -/
theorem dry_run_same_control_flow (be : Backend) (w : Work) :
    (w.DryRun = true → ∀ c ∈ (executeWork be w).1,
        c.op = (if w.DeployMode then StackOp.ApplyDryRun else StackOp.DestoryDryRun)) ∧
      (w.DryRun = false → ∀ c ∈ (executeWork be w).1,
        c.op = (if w.DeployMode then StackOp.ApplyChanges else StackOp.Destroy)) ∧
      ((∀ i s, be (workOp { w with DryRun := true }) i s
            = be (workOp { w with DryRun := false }) i s) →
        (executeWork be { w with DryRun := true }).1.map Call.stack
            = (executeWork be { w with DryRun := false }).1.map Call.stack ∧
          (executeWork be { w with DryRun := true }).2
            = (executeWork be { w with DryRun := false }).2) := by
  have hop : ∀ c ∈ (executeWork be w).1, c.op = workOp w := by
    intro c hc
    cases hm : w.DeployMode with
    | true =>
      rw [executeWork_deploy be w hm] at hc
      simpa [workOp, hm] using deployLoop_op be w.JobName w.DryRun w.Job.Stacks 0 c hc
    | false =>
      rw [executeWork_destroy be w hm] at hc
      simpa [workOp, hm] using
        destroyLoop_op be w.JobName w.DryRun w.Job.Stacks w.Job.Stacks.length c hc
  refine ⟨?_, ?_, ?_⟩
  · intro hd c hc
    rw [hop c hc]
    cases hm : w.DeployMode <;> simp [workOp, hm, hd, deployOp, destroyOp]
  · intro hd c hc
    rw [hop c hc]
    cases hm : w.DeployMode <;> simp [workOp, hm, hd, deployOp, destroyOp]
  · intro hsame
    cases hm : w.DeployMode with
    | true =>
      simp only [workOp, hm, if_true] at hsame
      have h := deployLoop_congr be w.JobName true false hsame w.Job.Stacks 0
      rw [executeWork_deploy be _ rfl, executeWork_deploy be _ rfl]
      exact ⟨h.1, by simp only [h.2]⟩
    | false =>
      simp only [workOp, hm, if_false, Bool.false_eq_true] at hsame
      have h := destroyLoop_congr be w.JobName true false w.Job.Stacks hsame w.Job.Stacks.length
      rw [executeWork_destroy be _ rfl, executeWork_destroy be _ rfl]
      exact ⟨h.1, by simp only [h.2]⟩

/-- Job `A` on a backend failing at index 0 for every operation: the dry run and
the real run send the same outcomes. -/
theorem dry_run_same_control_flow_witness :
    (executeWork failAt0 { unitA with DryRun := true }).2
      = (executeWork failAt0 { unitA with DryRun := false }).2 :=
  ((dry_run_same_control_flow failAt0 unitA).2.2 (fun _ _ => rfl)).2

/-- C2: the order keys `Apply` iterates over are exactly the distinct `Order`
values of the input jobs, each once, strictly ascending in deploy mode and
strictly descending in destroy mode, whatever order the keys are collected in;
hence the keys of the units pushed form a non-decreasing sequence on deploy and a
non-increasing one on destroy. -/
theorem order_keys_distinct_and_sorted (cc : ComposeConfig) (logLevel : Int)
    (deployMode dryRun : Bool) (sess : Except String Nat) (results : Nat → Result) :
    (∀ k, k ∈ applyOrders cc deployMode ↔ ∃ p ∈ cc.Jobs, p.2.Order = k) ∧
      (applyOrders cc deployMode).Nodup ∧
      (deployMode = true → (applyOrders cc deployMode).Sorted (fun a b => a < b)) ∧
      (deployMode = false → (applyOrders cc deployMode).Sorted (fun a b => a > b)) ∧
      (∀ ks, ks.Perm (jobMapKeys (buildJobMap cc.Jobs)) →
        sortOrders deployMode ks = applyOrders cc deployMode) ∧
      (deployMode = true →
        ((sentWorks (Apply cc logLevel deployMode dryRun sess results).trace).map
          (fun w => w.Job.Order)).Sorted (fun a b => a ≤ b)) ∧
      (deployMode = false →
        ((sentWorks (Apply cc logLevel deployMode dryRun sess results).trace).map
          (fun w => w.Job.Order)).Sorted (fun a b => a ≥ b)) := by
  refine ⟨applyOrders_mem cc deployMode, applyOrders_nodup cc deployMode, ?_, ?_, ?_,
    (Apply_sent_sorted cc logLevel deployMode dryRun sess results).1,
    (Apply_sent_sorted cc logLevel deployMode dryRun sess results).2⟩
  · intro h; subst h; exact applyOrders_asc cc
  · intro h; subst h; exact applyOrders_desc cc
  · intro ks hks
    exact sortOrders_of_perm deployMode ks _ hks

/-- The scenario in destroy mode: keys collected as `[1, 2]` are iterated as `[2, 1]`. -/
theorem order_keys_distinct_and_sorted_witness :
    sortOrders false [1, 2] = applyOrders scenarioConfig false ∧
      (applyOrders scenarioConfig false).Sorted (fun a b => a > b) ∧
      ((sentWorks (Apply scenarioConfig 0 false false (Except.ok 7) okStream).trace).map
        (fun w => w.Job.Order)).Sorted (fun a b => a ≥ b) :=
  ⟨(order_keys_distinct_and_sorted scenarioConfig 0 false false (Except.ok 7) okStream).2.2.2.2.1
      [1, 2] (by decide),
    (order_keys_distinct_and_sorted scenarioConfig 0 false false (Except.ok 7) okStream).2.2.2.1 rfl,
    (order_keys_distinct_and_sorted scenarioConfig 0 false false (Except.ok 7) okStream).2.2.2.2.2.2
      rfl⟩

/-- C3: in every run of `Apply`, whenever a unit `w` is pushed, the dispatcher
has received as many outcomes as it has pushed units for groups other than the
group of `w`.  In particular, for consecutive groups: if `u` is the first unit
pushed for its group, only units of that group are pushed until `w`, and `w`
belongs to another group, then between the push of `u` and the push of `w` the
dispatcher has received exactly as many outcomes as it pushes units for the group
of `u` in the whole run. -/
theorem barrier_between_groups (cc : ComposeConfig) (logLevel : Int) (deployMode dryRun : Bool)
    (sess : Except String Nat) (results : Nat → Result) :
    (∀ pre w post,
        (Apply cc logLevel deployMode dryRun sess results).trace = pre ++ Event.send w :: post →
        (recvResults pre).length = sentOther w.Job.Order pre) ∧
      (∀ a u b w post,
        (Apply cc logLevel deployMode dryRun sess results).trace
          = a ++ Event.send u :: (b ++ Event.send w :: post) →
        sentFor u.Job.Order a = 0 →
        (∀ x ∈ sentWorks b, x.Job.Order = u.Job.Order) →
        u.Job.Order ≠ w.Job.Order →
        (recvResults b).length
          = sentFor u.Job.Order (Apply cc logLevel deployMode dryRun sess results).trace) := by
  refine ⟨fun pre w post h => Apply_barrier cc logLevel deployMode dryRun sess results pre post w h,
    ?_⟩
  intro a u b w post h hfirst hb hne
  -- keys of the pushed units, split at `u` and `w`
  have hkeys : (sentWorks (Apply cc logLevel deployMode dryRun sess results).trace).map
      (fun x => x.Job.Order)
      = (sentWorks a).map (fun x => x.Job.Order) ++ u.Job.Order ::
          ((sentWorks b).map (fun x => x.Job.Order) ++ w.Job.Order ::
            (sentWorks post).map (fun x => x.Job.Order)) := by
    rw [h]
    simp [sentWorks_append, sentWorks]
  have hsep : w.Job.Order ∉ (sentWorks a).map (fun x => x.Job.Order) ∧
      u.Job.Order ∉ (sentWorks post).map (fun x => x.Job.Order) := by
    have hs := Apply_sent_sorted cc logLevel deployMode dryRun sess results
    cases deployMode with
    | true =>
      have := hs.1 rfl
      rw [hkeys] at this
      exact pairwise_block_sep _ (fun x y hxy hyx => Int.le_antisymm hxy hyx) _ _ _ _ _ this hne
    | false =>
      have := hs.2 rfl
      rw [hkeys] at this
      exact pairwise_block_sep _ (fun x y hxy hyx => Int.le_antisymm hyx hxy) _ _ _ _ _ this hne
  -- the invariant at `u` and at `w`
  have hu := Apply_barrier cc logLevel deployMode dryRun sess results a
    (b ++ Event.send w :: post) u h
  have hw := Apply_barrier cc logLevel deployMode dryRun sess results
    (a ++ Event.send u :: b) post w (by rw [h]; simp)
  have ha1 := sentOther_add_sentFor u.Job.Order a
  have ha2 := sentOther_add_sentFor w.Job.Order a
  have ha3 : sentFor w.Job.Order a = 0 :=
    sentFor_eq_zero _ a (fun x hx hxo => hsep.1 (List.mem_map.mpr ⟨x, hx, hxo⟩))
  have hb1 := sentOther_add_sentFor w.Job.Order b
  have hb2 : sentFor w.Job.Order b = 0 :=
    sentFor_eq_zero _ b (fun x hx hxo => hne ((hb x hx).symm.trans hxo))
  have hb3 := sentOther_add_sentFor u.Job.Order b
  have hb4 : sentOther u.Job.Order b = 0 := sentOther_eq_zero _ b hb
  have hp : sentFor u.Job.Order post = 0 :=
    sentFor_eq_zero _ post (fun x hx hxo => hsep.2 (List.mem_map.mpr ⟨x, hx, hxo⟩))
  have hne' : ¬ w.Job.Order = u.Job.Order := fun hh => hne hh.symm
  rw [recvResults_append, sentOther_append] at hw
  simp only [recvResults, sentOther, hne, if_false, List.length_append] at hw
  rw [h, sentFor_append]
  simp only [sentFor, if_true, sentFor_append, hne', if_false, hfirst, hp]
  omega

/-- The scenario in deploy mode with successful outcomes: when `C` (order 2) is
pushed, two outcomes have been received, as many as units pushed for order 1. -/
theorem barrier_between_groups_witness :
    (recvResults [Event.send (mkWork true false ⟨7⟩ ⟨"A", 1, [⟨"s1"⟩, ⟨"s2"⟩]⟩),
        Event.send (mkWork true false ⟨7⟩ ⟨"B", 1, [⟨"s3"⟩]⟩),
        Event.recv (okStream 0), Event.recv (okStream 1)]).length
        = sentOther 2 [Event.send (mkWork true false ⟨7⟩ ⟨"A", 1, [⟨"s1"⟩, ⟨"s2"⟩]⟩),
            Event.send (mkWork true false ⟨7⟩ ⟨"B", 1, [⟨"s3"⟩]⟩),
            Event.recv (okStream 0), Event.recv (okStream 1)] ∧
      (recvResults [Event.send (mkWork true false ⟨7⟩ ⟨"B", 1, [⟨"s3"⟩]⟩),
        Event.recv (okStream 0), Event.recv (okStream 1)]).length
        = sentFor 1 (Apply scenarioConfig 0 true false (Except.ok 7) okStream).trace :=
  ⟨(barrier_between_groups scenarioConfig 0 true false (Except.ok 7) okStream).1
      [Event.send (mkWork true false ⟨7⟩ ⟨"A", 1, [⟨"s1"⟩, ⟨"s2"⟩]⟩),
        Event.send (mkWork true false ⟨7⟩ ⟨"B", 1, [⟨"s3"⟩]⟩),
        Event.recv (okStream 0), Event.recv (okStream 1)]
      (mkWork true false ⟨7⟩ ⟨"C", 2, [⟨"s4"⟩]⟩)
      [Event.recv (okStream 2), Event.cancelCtx] (by decide),
    (barrier_between_groups scenarioConfig 0 true false (Except.ok 7) okStream).2
      []
      (mkWork true false ⟨7⟩ ⟨"A", 1, [⟨"s1"⟩, ⟨"s2"⟩]⟩)
      [Event.send (mkWork true false ⟨7⟩ ⟨"B", 1, [⟨"s3"⟩]⟩),
        Event.recv (okStream 0), Event.recv (okStream 1)]
      (mkWork true false ⟨7⟩ ⟨"C", 2, [⟨"s4"⟩]⟩)
      [Event.recv (okStream 2), Event.cancelCtx] (by decide) rfl (by decide) (by decide)⟩

/-- C7 (counterexample): in the scenario, when `libs.GetAWSSession` fails, no
outcome is received, so no outcome fails; yet the run does not end as succeeded
(it exits at line 71) and no unit is pushed although the order keys `[1, 2]`
both have a non-empty group. -/
theorem setup_failure_run_not_succeeded :
    (∀ r ∈ recvResults
        (Apply scenarioConfig 0 true false (Except.error "no credentials") okStream).trace,
        r.Error = none) ∧
      (Apply scenarioConfig 0 true false (Except.error "no credentials") okStream).status
        = Status.setupFailed "no credentials" ∧
      (Apply scenarioConfig 0 true false (Except.error "no credentials") okStream).status
        ≠ Status.succeeded ∧
      sentWorks (Apply scenarioConfig 0 true false (Except.error "no credentials") okStream).trace
        = [] ∧
      applyOrders scenarioConfig true = [1, 2] ∧
      (groupOf (buildJobMap scenarioConfig.Jobs) 1).length = 2 ∧
      (groupOf (buildJobMap scenarioConfig.Jobs) 2).length = 1 := by
  decide

/-- C7 (amended): a run of `Apply` in which the dispatcher receives a failing
outcome ends as failed right after that outcome: `cancelCtx` is called on
receiving it (no call before), the deferred call on return finds the context
cancelled, so the cancellation signal fires exactly once; the failing outcome
arrives while group `cur` is open, the jobs dispatched are those of the groups up
to `cur`, and no unit of a later group is pushed.  A run in which the session is
obtained and no received outcome fails dispatches every group, in the order of
the keys, and ends as succeeded.  A run in which `libs.GetAWSSession` fails
performs no dispatcher event and ends in the setup failure. -/
theorem failure_cancels_once_and_stops (cc : ComposeConfig) (logLevel : Int)
    (deployMode dryRun : Bool) (sess : Except String Nat) (s : Nat) (results : Nat → Result) :
    ((∃ r ∈ recvResults (Apply cc logLevel deployMode dryRun sess results).trace,
          r.Error ≠ none) →
      ∃ e pre r done cur later,
        (Apply cc logLevel deployMode dryRun sess results).status = Status.failed e ∧
        (Apply cc logLevel deployMode dryRun sess results).trace
          = pre ++ [Event.recv r, Event.cancelCtx, Event.cancelCtx] ∧
        r.Error = some e ∧ cancelCalls pre = 0 ∧
        (∀ r' ∈ recvResults pre, r'.Error = none) ∧
        broadcasts false (Apply cc logLevel deployMode dryRun sess results).trace = 1 ∧
        applyOrders cc deployMode = done ++ cur :: later ∧
        (done.flatMap (groupOf (buildJobMap cc.Jobs))).length ≤ (recvResults pre).length ∧
        (recvResults pre).length
          < ((done ++ [cur]).flatMap (groupOf (buildJobMap cc.Jobs))).length ∧
        (sentWorks (Apply cc logLevel deployMode dryRun sess results).trace).map Work.Job
          = (done ++ [cur]).flatMap (groupOf (buildJobMap cc.Jobs)) ∧
        ∀ w ∈ sentWorks (Apply cc logLevel deployMode dryRun sess results).trace,
          w.Job.Order ∉ later) ∧
    ((∀ r ∈ recvResults (Apply cc logLevel deployMode dryRun (Except.ok s) results).trace,
          r.Error = none) →
      (Apply cc logLevel deployMode dryRun (Except.ok s) results).status = Status.succeeded ∧
        (sentWorks (Apply cc logLevel deployMode dryRun (Except.ok s) results).trace).map Work.Job
          = (applyOrders cc deployMode).flatMap (groupOf (buildJobMap cc.Jobs))) ∧
    (∀ err : String,
      (Apply cc logLevel deployMode dryRun (Except.error err) results).trace = [] ∧
        (Apply cc logLevel deployMode dryRun (Except.error err) results).status
          = Status.setupFailed err) := by
  refine ⟨?_, ?_, fun err => ⟨rfl, rfl⟩⟩
  · intro h
    rcases Apply_failed_of_recv cc logLevel deployMode dryRun sess results h with ⟨e, he⟩
    rcases Apply_failed cc logLevel deployMode dryRun sess results e he with
      ⟨s', pre, r, done, cur, later, _, h2, h3, h4, h5, h6, h7, h8, h9⟩
    have hsent : (sentWorks (Apply cc logLevel deployMode dryRun sess results).trace).map Work.Job
        = (done ++ [cur]).flatMap (groupOf (buildJobMap cc.Jobs)) := by
      have hnil : sentWorks [Event.recv r, Event.cancelCtx, Event.cancelCtx] = [] := rfl
      rw [h2, sentWorks_append, h7, hnil, List.append_nil, map_job_mkWork]
    refine ⟨e, pre, r, done, cur, later, he, h2, h3, h4, h5, ?_, h6, h8, h9, hsent, ?_⟩
    · rw [h2]; exact broadcasts_failed pre r h4
    · intro w hw hlater
      have hjob : w.Job ∈ (done ++ [cur]).flatMap (groupOf (buildJobMap cc.Jobs)) := by
        rw [← hsent]; exact List.mem_map.mpr ⟨w, hw, rfl⟩
      rcases List.mem_flatMap.mp hjob with ⟨o, ho, hjo⟩
      have hord : w.Job.Order = o :=
        groupOf_order _ (buildJobMap_spec cc.Jobs).2.2.1 o w.Job hjo
      have hnd := applyOrders_nodup cc deployMode
      rw [h6] at hnd
      have hnd' : ((done ++ [cur]) ++ later).Nodup := by simpa using hnd
      have hdis := (List.nodup_append.mp hnd').2.2
      exact hdis ho (hord ▸ hlater)
  · intro h
    rcases Apply_spec cc logLevel deployMode dryRun s results with
      ⟨h1, h2, _, _⟩ | ⟨e, pre, r, _, _, _, _, h2, h3, _⟩
    · exact ⟨h1, by rw [h2, map_job_mkWork]⟩
    · have hr : r ∈ recvResults (Apply cc logLevel deployMode dryRun (Except.ok s) results).trace := by
        rw [h2]; simp [recvResults_append, recvResults]
      have := h r hr
      rw [h3] at this
      cases this

/-- The scenario: with successful outcomes the run succeeds; when the first
outcome fails the run fails and the signal fires once. -/
theorem failure_cancels_once_and_stops_witness :
    (Apply scenarioConfig 0 true false (Except.ok 7) okStream).status = Status.succeeded ∧
      ∃ e, (Apply scenarioConfig 0 true false (Except.ok 7) failFirstStream).status
        = Status.failed e :=
  ⟨((failure_cancels_once_and_stops scenarioConfig 0 true false (Except.ok 7) 7 okStream).2.1
      (by decide)).1,
    let ⟨e, _, _, _, _, _, h, _⟩ :=
      (failure_cancels_once_and_stops scenarioConfig 0 true false (Except.ok 7) 7
        failFirstStream).1 ⟨⟨"A", some "boom"⟩, by decide, by decide⟩
    ⟨e, h⟩⟩

/-- C8 (counterexample): in the scenario, deploy mode, when the first outcome
received for group 1 fails, the run ends as failed after two units were pushed
for that group and a single outcome was received. -/
theorem failed_group_not_drained :
    (Apply scenarioConfig 0 true false (Except.ok 7) failFirstStream).status
        = Status.failed "boom" ∧
      sentFor 1 (Apply scenarioConfig 0 true false (Except.ok 7) failFirstStream).trace = 2 ∧
      sentOther 1 (Apply scenarioConfig 0 true false (Except.ok 7) failFirstStream).trace = 0 ∧
      (recvResults (Apply scenarioConfig 0 true false (Except.ok 7) failFirstStream).trace).length
        = 1 := by
  decide

/-- C8 (amended): a failed run ends right after the first failing outcome, which
is the last event before the two `cancelCtx` calls; every outcome received
before it was a success.  The groups `done` were completed, the group `cur` is
the failed one, the units pushed are those of `done` and `cur`, and the outcomes
received number more than the units of `done` and at most the units of `done`
and `cur`: of the failed group at least one outcome and at most as many as units
pushed are consumed. -/
theorem failed_group_stops_at_first_failure (cc : ComposeConfig) (logLevel : Int)
    (deployMode dryRun : Bool) (sess : Except String Nat) (results : Nat → Result) (e : String)
    (hfail : (Apply cc logLevel deployMode dryRun sess results).status = Status.failed e) :
    ∃ pre r done cur later,
      (Apply cc logLevel deployMode dryRun sess results).trace
        = pre ++ [Event.recv r, Event.cancelCtx, Event.cancelCtx] ∧
      r.Error = some e ∧ (∀ r' ∈ recvResults pre, r'.Error = none) ∧
      applyOrders cc deployMode = done ++ cur :: later ∧
      (sentWorks (Apply cc logLevel deployMode dryRun sess results).trace).map Work.Job
        = (done ++ [cur]).flatMap (groupOf (buildJobMap cc.Jobs)) ∧
      (done.flatMap (groupOf (buildJobMap cc.Jobs))).length
        < (recvResults (Apply cc logLevel deployMode dryRun sess results).trace).length ∧
      (recvResults (Apply cc logLevel deployMode dryRun sess results).trace).length
        ≤ (done.flatMap (groupOf (buildJobMap cc.Jobs))).length
          + (groupOf (buildJobMap cc.Jobs) cur).length := by
  rcases Apply_failed cc logLevel deployMode dryRun sess results e hfail with
    ⟨s', pre, r, done, cur, later, _, h2, h3, _, h5, h6, h7, h8, h9⟩
  have hnil : sentWorks [Event.recv r, Event.cancelCtx, Event.cancelCtx] = [] := rfl
  have hone : recvResults [Event.recv r, Event.cancelCtx, Event.cancelCtx] = [r] := rfl
  refine ⟨pre, r, done, cur, later, h2, h3, h5, h6, ?_, ?_, ?_⟩
  · rw [h2, sentWorks_append, h7, hnil, List.append_nil, map_job_mkWork]
  · rw [h2, recvResults_append, hone, List.length_append]
    simp only [List.length_singleton]
    omega
  · rw [h2, recvResults_append, hone, List.length_append]
    simp only [List.length_singleton]
    simp only [List.flatMap_append, List.flatMap_cons, List.flatMap_nil, List.append_nil,
      List.length_append] at h9
    omega

/-- The failed scenario run instantiates the amended C8. -/
theorem failed_group_stops_at_first_failure_witness :
    ∃ pre r done cur later,
      (Apply scenarioConfig 0 true false (Except.ok 7) failFirstStream).trace
        = pre ++ [Event.recv r, Event.cancelCtx, Event.cancelCtx] ∧
      r.Error = some "boom" ∧ (∀ r' ∈ recvResults pre, r'.Error = none) ∧
      applyOrders scenarioConfig true = done ++ cur :: later ∧
      (sentWorks (Apply scenarioConfig 0 true false (Except.ok 7) failFirstStream).trace).map
          Work.Job
        = (done ++ [cur]).flatMap (groupOf (buildJobMap scenarioConfig.Jobs)) ∧
      (done.flatMap (groupOf (buildJobMap scenarioConfig.Jobs))).length
        < (recvResults
            (Apply scenarioConfig 0 true false (Except.ok 7) failFirstStream).trace).length ∧
      (recvResults (Apply scenarioConfig 0 true false (Except.ok 7) failFirstStream).trace).length
        ≤ (done.flatMap (groupOf (buildJobMap scenarioConfig.Jobs))).length
          + (groupOf (buildJobMap scenarioConfig.Jobs) cur).length :=
  failed_group_stops_at_first_failure scenarioConfig 0 true false (Except.ok 7) failFirstStream
    "boom" (by decide)

/-- C10: when the first failing stack operation in walk order of a unit is the
one on stack `s` (index `k`) with backend error `e`, the only failing outcome the
worker sends is `Result{JobName: name, Error: "[JOB: name] [STACK: s]. Error: e\n"}`
with `name` the `JobName` of the unit; every unit `Apply` pushes carries as
`JobName` the key of its job in `cc.Jobs`; and a failed run of `Apply` reports
the error of the first failing outcome it received, unchanged. -/
theorem failure_outcome_names_job_and_stack :
    (∀ (be : Backend) (w : Work) (k : Nat) (s : Stack) (e : String),
        w.Job.Stacks[k]? = some s → be (workOp w) k s = some e →
        (∀ j t, (if w.DeployMode then j < k else k < j) →
          w.Job.Stacks[j]? = some t → be (workOp w) j t = none) →
        (executeWork be w).2.filter (fun r => r.Error.isSome)
          = [⟨w.JobName, some ("[JOB: " ++ w.JobName ++ "] [STACK: " ++ s.StackName
              ++ "]. Error: " ++ e ++ "\n")⟩]) ∧
      (∀ (cc : ComposeConfig) (logLevel : Int) (deployMode dryRun : Bool)
          (sess : Except String Nat) (results : Nat → Result),
        ∀ w ∈ sentWorks (Apply cc logLevel deployMode dryRun sess results).trace,
          ∃ p ∈ cc.Jobs, w.JobName = p.1 ∧ w.Job = { p.2 with Name := p.1 }) ∧
      (∀ (cc : ComposeConfig) (logLevel : Int) (deployMode dryRun : Bool)
          (sess : Except String Nat) (results : Nat → Result) (e : String),
        (Apply cc logLevel deployMode dryRun sess results).status = Status.failed e →
        ∃ pre r post,
          (Apply cc logLevel deployMode dryRun sess results).trace = pre ++ Event.recv r :: post ∧
          r.Error = some e ∧ ∀ r' ∈ recvResults pre, r'.Error = none) := by
  refine ⟨?_, ?_, ?_⟩
  · intro be w k s e hk hf hfirst
    rw [executeWork_fail be w k s e hk hf hfirst]
    simp [errStr]
  · intro cc logLevel deployMode dryRun sess results w hw
    rcases Apply_sent cc logLevel deployMode dryRun sess results with ⟨cm, os, later, _, h2⟩
    rw [h2] at hw
    rcases List.mem_map.mp hw with ⟨j, hj, hjw⟩
    rcases List.mem_flatMap.mp hj with ⟨o, _, hjo⟩
    rcases groupOf_from_config cc.Jobs o j hjo with ⟨p, hp, hpj⟩
    refine ⟨p, hp, ?_, ?_⟩
    · rw [← hjw, hpj]; rfl
    · rw [← hjw, hpj]; rfl
  · intro cc logLevel deployMode dryRun sess results e hfail
    rcases Apply_failed cc logLevel deployMode dryRun sess results e hfail with
      ⟨_, pre, r, _, _, _, _, h2, h3, _, h5, _⟩
    exact ⟨pre, r, [Event.cancelCtx, Event.cancelCtx], h2, h3, h5⟩

/-- Job `A` deployed on a backend failing at index 0, and the failed scenario run. -/
theorem failure_outcome_names_job_and_stack_witness :
    (executeWork failAt0 unitA).2.filter (fun r => r.Error.isSome)
        = [⟨"A", some ("[JOB: " ++ "A" ++ "] [STACK: " ++ "s1" ++ "]. Error: " ++ "boom" ++ "\n")⟩] ∧
      ∃ pre r post,
        (Apply scenarioConfig 0 true false (Except.ok 7) failFirstStream).trace
          = pre ++ Event.recv r :: post ∧
        r.Error = some "boom" ∧ ∀ r' ∈ recvResults pre, r'.Error = none :=
  ⟨failure_outcome_names_job_and_stack.1 failAt0 unitA 0 ⟨"s1"⟩ "boom" rfl rfl
      (fun j _ hj _ => absurd hj (Nat.not_lt_zero j)),
    failure_outcome_names_job_and_stack.2.2 scenarioConfig 0 true false (Except.ok 7)
      failFirstStream "boom" (by decide)⟩

end Compose
